import Mathlib

/-!
Shallow embedding of `ldm/invoke/prompt_parser.py` (InvokeAI prompt parsing
and flattening subsystem), together with theorems settling the spec claims.

Modelling conventions:
* Python `float` is idealised as `Q`; the float cube root `x ** (1/3)`
  appearing in `CrossAttentionControlSubstitute.__init__` is abstracted as a
  parameter `cbrt : Q → Q` threaded through every definition that can reach it.
* Python strings are `List Char` (`Str`); `cs` converts a Lean string literal.
* Python dicts are insertion-ordered association lists, exactly like CPython:
  update replaces values in place for existing keys and appends new keys.
* Exceptions are an explicit error type `PErr` carried in `Except`.
* The pyparsing 3.0.9 combinators used by `build_parser_syntax` are deeply
  embedded as `PExpr` with a fuelled evaluator that mirrors the library's
  observable behaviour (per-element whitespace skipping, ordered choice,
  greedy repetition, parse actions, exception propagation).
-/

abbrev Str := List Char

def cs (s : String) : Str := s.toList

/-- Exact rational numbers with fully structural (kernel-reducible)
arithmetic, idealising Python floats.  `num`/`den` are kept normalized
(positive denominator, coprime) by the smart constructor `mkQ`, so
structural equality is value equality for every number the embedding
produces.  (Mathlib's `Rat` is not used because its operations do not
reduce definitionally.) -/
structure Q where
  num : ℤ
  den : ℕ
  deriving Repr, DecidableEq

/-- Euclid's algorithm with structural fuel (the first argument plus one
always suffices, since remainders strictly decrease). -/
def gcdF : ℕ → ℕ → ℕ → ℕ
  | 0, _, y => y
  | _ + 1, 0, y => y
  | f + 1, x + 1, y => gcdF f (y % (x + 1)) (x + 1)

def ngcd (a b : ℕ) : ℕ := gcdF (a + 1) a b

/-- Normalizing constructor (denominator 0 yields a junk value that no
reachable code path produces). -/
def mkQ (n : ℤ) (d : ℕ) : Q :=
  if d = 0 then ⟨0, 0⟩
  else
    let g := ngcd n.natAbs d
    ⟨n / (g : ℤ), d / g⟩

def Q.ofN (n : ℕ) : Q := ⟨(n : ℤ), 1⟩

instance (n : ℕ) : OfNat Q n := ⟨⟨(n : ℤ), 1⟩⟩

instance : Add Q :=
  ⟨fun a b => mkQ (a.num * (b.den : ℤ) + b.num * (a.den : ℤ)) (a.den * b.den)⟩

instance : Neg Q := ⟨fun a => ⟨-a.num, a.den⟩⟩

instance : Sub Q := ⟨fun a b => a + (-b)⟩

instance : Mul Q := ⟨fun a b => mkQ (a.num * b.num) (a.den * b.den)⟩

instance : Div Q :=
  ⟨fun a b =>
    if (a.den : ℤ) * b.num < 0 then mkQ (-(a.num * (b.den : ℤ))) ((a.den : ℤ) * b.num).natAbs
    else mkQ (a.num * (b.den : ℤ)) ((a.den : ℤ) * b.num).natAbs⟩

def Q.pow (a : Q) : ℕ → Q
  | 0 => 1
  | n + 1 => Q.pow a n * a

instance : Pow Q ℕ := ⟨Q.pow⟩

def Q.abs (a : Q) : Q := ⟨(a.num.natAbs : ℤ), a.den⟩

/-- Integer part of a non-negative `Q`. -/
def Q.floorNat (a : Q) : ℕ := a.num.toNat / a.den

/-- Python exceptions that the prompt parser can raise.  `parseException`
is pyparsing's backtrackable `ParseException` escaping `parse_string`;
`parsingException` is `PromptParser.ParsingException`. -/
inductive PErr where
  | parseException
  | parsingException
  | valueError
  | typeError
  | attributeError
  | assertionError
  | indexError
  | unrecognizedOperator (op : Str)
  deriving Repr, DecidableEq

/-- Values stored in an options dict: floats or strings. -/
inductive OVal where
  | num (q : Q)
  | str (s : Str)
  deriving Repr, DecidableEq

/-- A Python dict as an insertion-ordered association list. -/
abbrev Options := List (Str × OVal)

/-- `m[k]` lookup. -/
def olookup (k : Str) : Options → Option OVal
  | [] => none
  | (k', v) :: rest => if k' = k then some v else olookup k rest

/-- `m.pop(k, None)` key removal (the lookup half is `olookup`). -/
def oerase (k : Str) : Options → Options
  | [] => []
  | (k', v) :: rest => if k' = k then oerase k rest else (k', v) :: oerase k rest

/-- `m[k] = v` on an insertion-ordered dict: replace in place or append. -/
def oinsert (k : Str) (v : OVal) : Options → Options
  | [] => [(k, v)]
  | (k', v') :: rest => if k' = k then (k, v) :: rest else (k', v') :: oinsert k v rest

/-- `m1.update(m2)` on insertion-ordered dicts. -/
def oupdate (m1 m2 : Options) : Options :=
  m2.foldl (fun acc kv => oinsert kv.1 kv.2 acc) m1

/-- Characters of Python's `string.whitespace`. -/
def pyWhitespace : List Char := [' ', '\t', '\n', '\r', '\x0b', '\x0c']

/-- Characters stripped by Python `str.strip()` (the `str.isspace` set). -/
def pyIsSpace (c : Char) : Bool :=
  c ∈ [' ', '\t', '\n', '\r', '\x0b', '\x0c',
       '\x1c', '\x1d', '\x1e', '\x1f', '\x85', '\u00A0', '\u1680',
       '\u2000', '\u2001', '\u2002', '\u2003', '\u2004', '\u2005', '\u2006',
       '\u2007', '\u2008', '\u2009', '\u200A', '\u2028', '\u2029', '\u202F',
       '\u205F', '\u3000']

def pyStrip (s : Str) : Str :=
  ((s.dropWhile pyIsSpace).reverse.dropWhile pyIsSpace).reverse

/-- Python `str.expandtabs()` (tab stops every 8 columns, column resets at
newline and carriage return), applied by pyparsing's `parse_string`. -/
def expandtabsAux : Nat → Str → Str
  | _, [] => []
  | col, c :: rest =>
    if c = '\t' then
      List.replicate (8 - col % 8) ' ' ++ expandtabsAux (col + (8 - col % 8)) rest
    else if c = '\n' ∨ c = '\r' then
      c :: expandtabsAux 0 rest
    else
      c :: expandtabsAux (col + 1) rest

def expandtabs (s : Str) : Str := expandtabsAux 0 s

/-- Python `s.replace(pat, rep)` for a two-character pattern
(left-to-right, non-overlapping). -/
def replace2 (a b : Char) (rep : Str) : Str → Str
  | [] => []
  | [c] => [c]
  | c1 :: c2 :: rest =>
    if c1 = a ∧ c2 = b then rep ++ replace2 a b rep rest
    else c1 :: replace2 a b rep (c2 :: rest)

/-- Python `s.replace(pat, rep)` for a one-character pattern. -/
def replace1 (a : Char) (rep : Str) : Str → Str
  | [] => []
  | c :: rest => if c = a then rep ++ replace1 a rep rest else c :: replace1 a rep rest

/-- Substring test for a two-character pattern. -/
def hasSub2 (a b : Char) : Str → Bool
  | [] => false
  | [_] => false
  | c1 :: c2 :: rest => (c1 = a ∧ c2 = b) ∨ hasSub2 a b (c2 :: rest)

/-- Parse tree nodes.  One dynamic type covering every Python value that can
appear in a token list: raw strings and floats, the tree-model classes of
`prompt_parser.py`, and `pp.ParseResults` sublists (`group`). -/
inductive Node where
  | str (s : Str)
  | num (q : Q)
  | fragment (text : Str) (weight : Q)
  | attention (weight : Q) (children : List Node)
  | cacs (original : List Node) (edited : List Node) (options : Options)
  | blend (prompts : List Node) (weights : List Q) (normalize : Bool)
  | prompt (children : List Node)
  | flattened (children : List Node)
  | conjunction (prompts : List Node) (weights : List Q)
  | group (items : List Node)
  deriving Repr

/-- `Fragment.__init__` unescapes `\(`, `\)`, `\"` when any of them occurs. -/
def fragText (t : Str) : Str :=
  if hasSub2 '\\' '"' t ∨ hasSub2 '\\' '(' t ∨ hasSub2 '\\' ')' t then
    replace2 '\\' '"' (cs "\"") (replace2 '\\' ')' (cs ")") (replace2 '\\' '(' (cs "(") t))
  else t

/-- `Fragment(text, weight)`. -/
def Fragment_mk (t : Str) (w : Q) : Node := .fragment (fragText t) w

/-- `Attention(weight, children)`: the constructor's checks (weight is a
float, children is a list) always hold in this embedding. -/
def Attention_mk (w : Q) (children : List Node) : Node := .attention w children

/-- The `default_options` dict of `CrossAttentionControlSubstitute.__init__`. -/
def cacsDefaults : Options :=
  [(cs "s_start", .num 0),
   (cs "s_end", .num (mkQ 2062994740159002 10000000000000000)),
   (cs "t_start", .num 0),
   (cs "t_end", .num 1)]

/-- The option-merging part of `CrossAttentionControlSubstitute.__init__`:
pop `shape_freedom`, derive `s_end = 1 - shape_freedom ** (1/3)` when present,
then update the defaults with the remaining options.  A non-float
`shape_freedom` would make the Python `**` raise `TypeError`. -/
def mergedOptions (cbrt : Q → Q) : Option Options → Except PErr Options
  | none => .ok cacsDefaults
  | some o =>
    let rest := oerase (cs "shape_freedom") o
    match olookup (cs "shape_freedom") o with
    | none => .ok (oupdate cacsDefaults rest)
    | some (.num v) =>
        .ok (oupdate (oinsert (cs "s_end") (.num (1 - cbrt v)) cacsDefaults) rest)
    | some (.str _) => .error .typeError

/-- `CrossAttentionControlSubstitute(original, edited, options)`: an empty
`edited` becomes `[Fragment('')]`. -/
def CACS_mk (cbrt : Q → Q) (original edited : List Node) (options : Option Options) :
    Except PErr Node := do
  let ed := if edited.isEmpty then [Fragment_mk (cs "") 1] else edited
  let mo ← mergedOptions cbrt options
  .ok (.cacs original ed mo)

/-- Children list of a `Prompt`/`FlattenedPrompt` node. -/
def Node.childrenOf : Node → List Node
  | .prompt c => c
  | .flattened c => c
  | _ => []

/-- Direct-child substitute test used by `Blend.__init__`
(`isinstance(f, CrossAttentionControlSubstitute)`). -/
def Node.isCacs : Node → Bool
  | .cacs _ _ _ => true
  | _ => false

/-- `Blend.__init__` validation for one child prompt: it must be a `Prompt`
or `FlattenedPrompt` and none of its direct children may be a
`CrossAttentionControlSubstitute`. -/
def blendCheckPrompt : Node → Except PErr Unit
  | .prompt c => if c.any Node.isCacs then .error .parsingException else .ok ()
  | .flattened c => if c.any Node.isCacs then .error .parsingException else .ok ()
  | _ => .error .parsingException

/-- `Blend(prompts, weights, normalize_weights)`.  Note line 238 of the
source overwrites the upcast list with the raw `prompts` argument, so the
raw argument is what gets stored. -/
def Blend_mk (prompts : List Node) (weights : List Q) (normalize : Bool) :
    Except PErr Node := do
  if prompts.length ≠ weights.length then .error .parsingException
  else do
    let _ ← prompts.mapM blendCheckPrompt
    .ok (.blend prompts weights normalize)

/-- Allowed direct children of a `Prompt`: `Attention`, `BaseFragment`
subclasses (`Fragment`, cross-attention fragments) and `pp.ParseResults`. -/
def promptChildOk : Node → Bool
  | .attention _ _ => true
  | .fragment _ _ => true
  | .cacs _ _ _ => true
  | .group _ => true
  | _ => false

/-- `Prompt(parts)`. -/
def Prompt_mk (parts : List Node) : Except PErr Node :=
  if parts.all promptChildOk then .ok (.prompt parts) else .error .parsingException

mutual

/-- `FlattenedPrompt.append`: lists are spliced recursively, fragments kept,
anything else rejected (tuples do not occur in this embedding's inputs). -/
def flattenedAppend (acc : List Node) : Node → Except PErr (List Node)
  | .group items => flattenedAppendList acc items
  | .fragment t w => .ok (acc ++ [.fragment t w])
  | .cacs o e m => .ok (acc ++ [.cacs o e m])
  | _ => .error .parsingException

def flattenedAppendList (acc : List Node) : List Node → Except PErr (List Node)
  | [] => .ok acc
  | x :: rest => do
    let acc' ← flattenedAppend acc x
    flattenedAppendList acc' rest

end

/-- `FlattenedPrompt(parts)`. -/
def FlattenedPrompt_mk (parts : List Node) : Except PErr Node := do
  let c ← flattenedAppendList [] parts
  .ok (.flattened c)

/-- `Conjunction(prompts, weights)`: parse-result items are wrapped into
`Prompt` objects; a weight count mismatch raises. -/
def Conjunction_mk (xs : List Node) (weights : Option (List Q)) : Except PErr Node := do
  let prompts ← xs.mapM (fun x => match x with
    | .prompt c => .ok (Node.prompt c)
    | .blend p w n => .ok (Node.blend p w n)
    | .flattened c => .ok (Node.flattened c)
    | .group items => Prompt_mk items
    | _ => .error .typeError)
  let ws := match weights with
    | none => List.replicate prompts.length (1 : Q)
    | some w => w
  if ws.length ≠ prompts.length then .error .parsingException
  else .ok (.conjunction prompts ws)

/-- One step of `fuse_fragments` (inner helper of `PromptParser.flatten`),
with the growing `result` list made explicit: a substitute is rebuilt with
recursively fused `original`/`edited` and re-merged options; a fragment
merges into a directly preceding fragment of equal weight (single space
between the texts, re-run through the `Fragment` constructor); reading
`.text`/`.weight` off any other node type is a Python `AttributeError`. -/
def fuseStep (cbrt : Q → Q) (result : List Node) : List Node → Except PErr (List Node)
  | [] => .ok result
  | .cacs o e opts :: rest => do
      let origFused ← fuseStep cbrt [] o
      let editedFused ← fuseStep cbrt [] e
      let n ← CACS_mk cbrt origFused editedFused (some opts)
      fuseStep cbrt (result ++ [n]) rest
  | .fragment t w :: rest =>
      match result.getLast? with
      | some (.fragment lastText lastWeight) =>
          if lastWeight = w then
            fuseStep cbrt (result.dropLast ++ [Fragment_mk (lastText ++ ' ' :: t) lastWeight]) rest
          else fuseStep cbrt (result ++ [.fragment t w]) rest
      | some (.cacs _ _ _) => fuseStep cbrt (result ++ [.fragment t w]) rest
      | some _ => .error .attributeError
      | none => fuseStep cbrt (result ++ [.fragment t w]) rest
  | _ :: _ => .error .attributeError

/-- `fuse_fragments(items)`. -/
def fuse_fragments (cbrt : Q → Q) (items : List Node) : Except PErr (List Node) :=
  fuseStep cbrt [] items

mutual

/-- `flatten_internal(node, weight_scale, results, prefix)`, with the
accumulated `results` factored out: the function returns the contribution
this node appends.  Fragments pick up the accumulated scale, attention
recurses with `weight_scale * weight`, substitutes flatten their two sides
independently at the current scale, blends re-blend the flattened
subprompts, prompts fuse their linearised children into a
`FlattenedPrompt`; any other node type raises `ParsingException`. -/
def flatten_internal (cbrt : Q → Q) (weight_scale : Q) : Node → Except PErr (List Node)
  | .group items => flattenList cbrt weight_scale items
  | .attention w children => flattenList cbrt (weight_scale * w) children
  | .fragment t w => .ok [Fragment_mk t (w * weight_scale)]
  | .cacs o e opts => do
      let original ← flattenList cbrt weight_scale o
      let edited ← flattenList cbrt weight_scale e
      let n ← CACS_mk cbrt original edited (some opts)
      .ok [n]
  | .blend prompts weights normalize => do
      let flattenedSubprompts ← flattenList cbrt weight_scale prompts
      let b ← Blend_mk flattenedSubprompts weights normalize
      .ok [b]
  | .prompt children => do
      let flattenedPrompt ← flattenList cbrt weight_scale children
      let fused ← fuse_fragments cbrt flattenedPrompt
      let f ← FlattenedPrompt_mk fused
      .ok [f]
  | _ => .error .parsingException

/-- Sequential accumulation of `flatten_internal` over a list
(`pp.ParseResults`/`list` case, attention children, blend subprompts,
prompt children all iterate this way). -/
def flattenList (cbrt : Q → Q) (scale : Q) : List Node → Except PErr (List Node)
  | [] => .ok []
  | x :: rest => do
      let r1 ← flatten_internal cbrt scale x
      let r2 ← flattenList cbrt scale rest
      .ok (r1 ++ r2)

end

/-- `PromptParser.flatten(root)`: flatten every part of the conjunction at
initial scale 1.0 and rebuild a `Conjunction` with the same weights.
(`root.prompts` on a non-conjunction is a Python `AttributeError`.) -/
def flatten (cbrt : Q → Q) : Node → Except PErr Node
  | .conjunction prompts weights => do
      let flattenedParts ← flattenList cbrt 1 prompts
      Conjunction_mk flattenedParts (some weights)
  | _ => .error .attributeError

/-- Numeric value of ASCII digits. -/
def digitsToNat (ds : Str) : ℕ := ds.foldl (fun a c => a * 10 + (c.toNat - 48)) 0

/-- Value of a decimal literal with optional sign, integer and fraction parts. -/
def decimalRat (neg : Bool) (ip fp : Str) : Q :=
  let v : Q := Q.ofN (digitsToNat ip) + Q.ofN (digitsToNat fp) / (10 : Q) ^ fp.length
  if neg then -v else v

/-- Python `float(s)` on a string, modelled for finite decimal literals
(optional sign, `D+`, `D+.D*` or `.D+` after stripping whitespace); anything
else raises `ValueError`.  (`inf`/`nan`/exponent/underscore forms never
arise in the parser's reachable inputs and are modelled as errors.) -/
def pyFloatOfStr (s : Str) : Except PErr Q :=
  let t := pyStrip s
  let neg : Bool := match t with | '-' :: _ => true | _ => false
  let u := match t with | '-' :: r => r | '+' :: r => r | _ => t
  let ip := u.takeWhile Char.isDigit
  let rest := u.drop ip.length
  match rest with
  | [] => if ip.isEmpty then .error .valueError else .ok (decimalRat neg ip [])
  | '.' :: fr =>
      let fp := fr.takeWhile Char.isDigit
      if fr.drop fp.length = [] ∧ ip.length + fp.length > 0 then
        .ok (decimalRat neg ip fp)
      else .error .valueError
  | _ => .error .valueError

/-- Fraction digits of `q ∈ [0,1)` (bounded; parser-reachable values are
finite decimals, which terminate well inside the bound). -/
def fracDigits : Q → ℕ → Str
  | _, 0 => []
  | q, fuel + 1 =>
    if q = (0 : Q) then []
    else
      let q10 := q * (10 : Q)
      Char.ofNat (48 + Q.floorNat q10) :: fracDigits (q10 - Q.ofN (Q.floorNat q10)) fuel

/-- Python `str(float)`, modelled for the finite decimals produced by the
grammar's number productions (always shows at least one fraction digit,
like `str(1.0) = "1.0"`). -/
def ratToFloatStr (q : Q) : Str :=
  let sign : Str := if q.num < 0 then cs "-" else []
  let a := Q.abs q
  let ipart := Q.floorNat a
  let fd := fracDigits (a - Q.ofN ipart) 25
  sign ++ (Nat.toDigits 10 ipart) ++ '.' :: (if fd.isEmpty then cs "0" else fd)

/-- The grammar symbols (`pp.Forward`s and named locals) of
`build_parser_syntax`. -/
inductive GId where
  | number
  | restricted_word
  | restricted_fragment
  | attention
  | quoted_fragment
  | parenthesized_fragment
  | unrestricted_word
  | fragment
  | prompt
  | quoted_prompt
  | option
  | options
  | potential_target_fragment
  | cross_attention_substitute
  | blend
  | conjunction
  deriving Repr, DecidableEq

/-- The parse actions attached in `build_parser_syntax`. -/
inductive ActId where
  | restrictedWordFrags
  | commaFragment
  | unrestrictedWordFrag
  | tokenFloat
  | tokenStr
  | parseQuotedFragment
  | parseQuotedPrompt
  | makeAttention
  | makeOperator
  | makeConjunction
  deriving Repr, DecidableEq

/-- Deep embedding of the pyparsing 3.0.9 combinators used by the grammar.
Leading-whitespace skipping (over `" \n\t\r"`) happens at the terminals
that have `skipWhitespace` set, and is disabled inside `combine`
(`pp.Combine` with `adjacent=True` calls `leave_whitespace` recursively,
while itself still skipping leading whitespace).  Composite elements do not
need their own skip: pyparsing's composite-level pre-skips only ever fire
when the first tried terminal would skip anyway. -/
inductive PExpr where
  | lit (t : Str)
  | word (chars : Str)
  | charIn (chars : Str)
  | charsNotIn1 (chars : Str)
  | charsNotIn (chars : Str)
  | white
  | realNum
  | quoted
  | strEnd
  | emptyE
  | seq (es : List PExpr)
  | first (es : List PExpr)
  | orLongest (es : List PExpr)
  | zeroOrMore (e : PExpr)
  | oneOrMore (e : PExpr)
  | opt (e : PExpr)
  | groupE (e : PExpr)
  | suppressE (e : PExpr)
  | dictE (e : PExpr)
  | notAny (e : PExpr)
  | combine (e : PExpr)
  | act (a : ActId) (e : PExpr)
  | ref (g : GId)
  deriving Repr

/-- pyparsing `ParserElement.DEFAULT_WHITE_CHARS`. -/
def ppDefaultWhite : List Char := [' ', '\n', '\t', '\r']

/-- Characters `pp.White()` matches (its default `ws` argument). -/
def whiteMatch : List Char := [' ', '\t', '\r', '\n']

/-- Characters `pp.White()` skips before matching (its `whiteStrs` keys
minus the matched set). -/
def whiteExtra : List Char :=
  ['\x0c', '\u00A0', '\u1680', '\u180E', '\u2000', '\u2001', '\u2002', '\u2003',
   '\u2004', '\u2005', '\u2006', '\u2007', '\u2008', '\u2009', '\u200A', '\u200B',
   '\u202F', '\u205F', '\u3000']

/-- `pp.nums`. -/
def nums : Str := cs "0123456789"

/-- `pp.alphanums + '_'`. -/
def alphanumsU : Str :=
  cs "ABCDEFGHIJKLMNOPQRSTUVWXYZabcdefghijklmnopqrstuvwxyz0123456789_"

/-- The `syntactic_chars` string (keys of `syntactic_symbols`). -/
def syntacticChars : Str := cs "()\",.+-="

/-- `number`: real literals or `Combine(Optional("-") + Word(nums))`
mapped to float. -/
def numberExpr : PExpr :=
  .first [.realNum,
          .act .tokenFloat (.combine (.seq [.opt (.lit (cs "-")), .word nums]))]

/-- The grammar of `build_parser_syntax`, one entry per local definition. -/
def grammarDef : GId → PExpr
  | .number => numberExpr
  | .restricted_word =>
      .act .restrictedWordFrags (.combine (.oneOrMore (.first
        [.orLongest [.lit (cs "\\("), .lit (cs "\\)"), .lit (cs "\\\""), .lit (cs "\\,"),
                     .lit (cs "\\."), .lit (cs "\\+"), .lit (cs "\\-"), .lit (cs "\\=")],
         .seq [.charIn (cs "-+"),
               .notAny (.first [.white, .charIn syntacticChars, .strEnd])],
         .charsNotIn1 (pyWhitespace ++ syntacticChars)])))
  | .restricted_fragment => .oneOrMore (.ref .restricted_word)
  | .attention =>
      .act .makeAttention (.seq
        [.groupE (.first [.ref .quoted_fragment, .ref .parenthesized_fragment,
                          .ref .restricted_word]),
         .notAny .white,
         .first [.word (cs "+"), .word (cs "-"), .ref .number]])
  | .quoted_fragment => .act .parseQuotedFragment .quoted
  | .parenthesized_fragment =>
      .seq [.suppressE (.lit (cs "(")), .ref .fragment, .suppressE (.lit (cs ")"))]
  | .unrestricted_word => .act .unrestrictedWordFrag (.charsNotIn pyWhitespace)
  | .fragment =>
      .zeroOrMore (.first
        [.ref .attention, .ref .parenthesized_fragment, .ref .quoted_fragment,
         .ref .restricted_word, .act .commaFragment (.lit (cs ","))])
  | .prompt =>
      .zeroOrMore (.first
        [.ref .cross_attention_substitute, .ref .attention, .ref .quoted_fragment,
         .ref .parenthesized_fragment, .ref .unrestricted_word, .suppressE .white])
  | .quoted_prompt => .act .parseQuotedPrompt .quoted
  | .option =>
      .groupE (.first
        [.seq [.word alphanumsU, .suppressE (.lit (cs "=")),
               .first [.ref .number, .word alphanumsU]],
         .act .tokenStr numberExpr,
         .word alphanumsU])
  | .options =>
      .dictE (.opt (.seq [.ref .option,
                          .zeroOrMore (.seq [.suppressE (.lit (cs ",")), .ref .option])]))
  | .potential_target_fragment =>
      .first [.ref .quoted_fragment, .ref .parenthesized_fragment, .ref .restricted_word]
  | .cross_attention_substitute =>
      .act .makeOperator (.seq
        [.groupE (.ref .potential_target_fragment),
         .lit (cs ".swap"),
         .suppressE (.lit (cs "(")),
         .groupE (.first [.ref .quoted_fragment, .ref .parenthesized_fragment,
                          .ref .attention, .ref .restricted_fragment, .emptyE]),
         .opt (.seq [.suppressE (.lit (cs ",")), .ref .options]),
         .suppressE (.lit (cs ")"))])
  | .blend =>
      .act .makeOperator (.seq
        [.suppressE (.lit (cs "(")),
         .groupE (.seq
           [.groupE (.first [.ref .potential_target_fragment, .ref .quoted_prompt]),
            .zeroOrMore (.seq [.suppressE (.lit (cs ",")),
                               .groupE (.first [.ref .potential_target_fragment,
                                                .ref .quoted_prompt])])]),
         .suppressE (.lit (cs ")")),
         .lit (cs ".blend"),
         .suppressE (.lit (cs "(")),
         .groupE (.ref .options),
         .suppressE (.lit (cs ")"))])
  | .conjunction =>
      .act .makeConjunction (.seq
        [.first [.ref .blend, .groupE (.ref .prompt)], .strEnd])

/-- Parser configuration: the attention bases of `PromptParser.__init__` and
the abstracted cube root. -/
structure PParams where
  plusBase : Q
  minusBase : Q
  cbrt : Q → Q

/-- Outcome of evaluating a pyparsing element: backtrackable failure
(`ParseException`), success with the remaining input and the token list,
a propagating Python exception, or out of fuel (a modelling artifact:
results are only claimed at sufficient fuel). -/
inductive POut where
  | fail
  | ok (rest : Str) (toks : List Node)
  | err (e : PErr)
  | oof
  deriving Repr

/-- Leading-whitespace skip over `DEFAULT_WHITE_CHARS`, active outside
`Combine` subtrees. -/
def skipIf (sw : Bool) (s : Str) : Str :=
  if sw then s.dropWhile (· ∈ ppDefaultWhite) else s

/-- `pyparsing_common.real`: the regex `[+-]?(?:\d+\.\d*|\.\d+)`. -/
def realScan (s : Str) : Option (Q × Str) :=
  let neg : Bool := match s with | '-' :: _ => true | _ => false
  let t := match s with | '-' :: r => r | '+' :: r => r | _ => s
  let d1 := t.takeWhile Char.isDigit
  let t2 := t.drop d1.length
  if d1.isEmpty then
    match t2 with
    | '.' :: u =>
        let d2 := u.takeWhile Char.isDigit
        if d2.isEmpty then none else some (decimalRat neg [] d2, u.drop d2.length)
    | _ => none
  else
    match t2 with
    | '.' :: u =>
        let d2 := u.takeWhile Char.isDigit
        some (decimalRat neg d1 d2, u.drop d2.length)
    | _ => none

/-- Scan the inside of a `pp.QuotedString('"', esc_quote='\\"')`: content is
`\"` pairs or single characters other than `"`, newline, carriage return,
closed by `"`; like the regex, a trailing `\"` can split so that the `"`
closes the string.  Returns the raw content and the rest of the input. -/
def qScan : Str → Option (Str × Str)
  | [] => none
  | '"' :: r => some ([], r)
  | '\\' :: '"' :: r =>
      (match qScan r with
       | some (c, rest) => some ('\\' :: '"' :: c, rest)
       | none => some (['\\'], r))
  | c :: r =>
      if c = '\n' ∨ c = '\r' then none
      else (qScan r).map (fun p => (c :: p.1, p.2))

/-- `QuotedString` unquoting: when a backslash is present the whitespace
escape map (`\t`, `\n`, `\f`, `\r`) is applied, then the escaped quote is
always unescaped. -/
def qUnquote (c : Str) : Str :=
  let c1 := if c.contains '\\' then
      replace2 '\\' 'r' (cs "\r")
        (replace2 '\\' 'f' (cs "\x0c")
          (replace2 '\\' 'n' (cs "\n")
            (replace2 '\\' 't' (cs "\t") c)))
    else c
  replace2 '\\' '"' (cs "\"") c1

/-- Join the string tokens produced inside a `pp.Combine`. -/
def joinStrs : List Node → Option Str
  | [] => some []
  | .str u :: rest => (joinStrs rest).map (u ++ ·)
  | _ => none

/-- `x.as_dict()` over the trailing option groups of an operator match
(`pp.Dict` semantics: the group's first token is the key; a single-token
group maps to `''`, a two-token group to its second token). -/
def asDict (toks : List Node) : Options :=
  toks.foldl (fun acc t => match t with
    | .group (.str k :: vs) =>
        match vs with
        | [] => oinsert k (.str []) acc
        | [.str u] => oinsert k (.str u) acc
        | [.num q] => oinsert k (.num q) acc
        | _ => acc
    | _ => acc) []

/-- The `.blend` branch of `make_operator`: wrap each target group in a
`Prompt`, convert each option group's first token with `float` (a bare
word such as `no_normalize` raises `ValueError`), then build the `Blend`
with default weight normalization. -/
def blendFromParse (targets opts : List Node) (rest : Str) : POut :=
  match targets.mapM (fun p => match p with | .group items => some items | _ => none) with
  | none => .err .assertionError
  | some lists =>
    match lists.mapM Prompt_mk with
    | .error e => .err e
    | .ok prompts =>
        match opts.mapM (fun w => match w with
          | .group (.str t :: _) => pyFloatOfStr t
          | .group (.num q :: _) => .ok q
          | _ => .error .typeError) with
        | .error e => .err e
        | .ok weights =>
            match Blend_mk prompts weights true with
            | .ok b => .ok rest [b]
            | .error e => .err e

mutual

/-- Fuelled evaluator for the embedded pyparsing elements.  Every recursive
call (subexpressions, loop iterations, forward dereferences, parse actions)
decrements the fuel. -/
def runE (P : PParams) : ℕ → PExpr → Bool → Str → POut
  | 0, _, _, _ => .oof
  | f + 1, e, sw, s =>
    match e with
    | .lit t =>
        let s' := skipIf sw s
        if t.isPrefixOf s' then .ok (s'.drop t.length) [.str t] else .fail
    | .word chars =>
        let s' := skipIf sw s
        let r := s'.takeWhile (· ∈ chars)
        if r.isEmpty then .fail else .ok (s'.drop r.length) [.str r]
    | .charIn chars =>
        match skipIf sw s with
        | c :: r => if c ∈ chars then .ok r [.str [c]] else .fail
        | [] => .fail
    | .charsNotIn1 chars =>
        match s with
        | c :: r => if c ∈ chars then .fail else .ok r [.str [c]]
        | [] => .fail
    | .charsNotIn chars =>
        let r := s.takeWhile (· ∉ chars)
        if r.isEmpty then .fail else .ok (s.drop r.length) [.str r]
    | .white =>
        let s' := if sw then s.dropWhile (· ∈ whiteExtra) else s
        let r := s'.takeWhile (· ∈ whiteMatch)
        if r.isEmpty then .fail else .ok (s'.drop r.length) [.str r]
    | .realNum =>
        match realScan (skipIf sw s) with
        | some (q, rest) => .ok rest [.num q]
        | none => .fail
    | .quoted =>
        match skipIf sw s with
        | '"' :: r =>
            (match qScan r with
             | some (content, rest) => .ok rest [.str (qUnquote content)]
             | none => .fail)
        | _ => .fail
    | .strEnd =>
        let s' := skipIf sw s
        if s'.isEmpty then .ok s' [] else .fail
    | .emptyE => .ok (skipIf sw s) []
    | .seq es => runSeq P f es sw s
    | .first es => runAlts P f es sw s
    | .orLongest es => runLongest P f es sw s
    | .zeroOrMore e' =>
        match runE P f e' sw s with
        | .ok s' t => runLoop P f e' sw s' t
        | .fail => .ok s []
        | x => x
    | .oneOrMore e' =>
        match runE P f e' sw s with
        | .ok s' t => runLoop P f e' sw s' t
        | x => x
    | .opt e' =>
        match runE P f e' sw s with
        | .fail => .ok s []
        | x => x
    | .groupE e' =>
        match runE P f e' sw s with
        | .ok s' t => .ok s' [.group t]
        | x => x
    | .suppressE e' =>
        match runE P f e' sw s with
        | .ok s' _ => .ok s' []
        | x => x
    | .dictE e' => runE P f e' sw s
    | .notAny e' =>
        match runE P f e' sw s with
        | .ok _ _ => .fail
        | .fail => .ok s []
        | x => x
    | .combine e' =>
        match runE P f e' false (skipIf sw s) with
        | .ok s'' t =>
            (match joinStrs t with
             | some j => .ok s'' [.str j]
             | none => .err .typeError)
        | x => x
    | .act a e' =>
        match runE P f e' sw s with
        | .ok s' t => applyAct P f a t s'
        | x => x
    | .ref g => runE P f (grammarDef g) sw s

/-- Sequential evaluation of an `And`. -/
def runSeq (P : PParams) : ℕ → List PExpr → Bool → Str → POut
  | 0, _, _, _ => .oof
  | _ + 1, [], _, s => .ok s []
  | f + 1, e :: rest, sw, s =>
      match runE P f e sw s with
      | .ok s' t =>
          (match runSeq P f rest sw s' with
           | .ok s'' t2 => .ok s'' (t ++ t2)
           | x => x)
      | x => x

/-- Ordered choice of a `MatchFirst`. -/
def runAlts (P : PParams) : ℕ → List PExpr → Bool → Str → POut
  | 0, _, _, _ => .oof
  | _ + 1, [], _, _ => .fail
  | f + 1, e :: rest, sw, s =>
      match runE P f e sw s with
      | .fail => runAlts P f rest sw s
      | x => x

/-- Longest match of a `pp.Or` (ties go to the earlier alternative). -/
def runLongest (P : PParams) : ℕ → List PExpr → Bool → Str → POut
  | 0, _, _, _ => .oof
  | _ + 1, [], _, _ => .fail
  | f + 1, e :: rest, sw, s =>
      match runE P f e sw s with
      | .err e' => .err e'
      | .oof => .oof
      | .fail => runLongest P f rest sw s
      | .ok s1 t1 =>
          match runLongest P f rest sw s with
          | .ok s2 t2 => if s2.length < s1.length then .ok s2 t2 else .ok s1 t1
          | .fail => .ok s1 t1
          | x => x

/-- The greedy repetition loop shared by `ZeroOrMore`/`OneOrMore`. -/
def runLoop (P : PParams) : ℕ → PExpr → Bool → Str → List Node → POut
  | 0, _, _, _, _ => .oof
  | f + 1, e, sw, s, acc =>
      match runE P f e sw s with
      | .fail => .ok s acc
      | .ok s' t => runLoop P f e sw s' (acc ++ t)
      | x => x

/-- Apply a parse action to the matched tokens (`rest` is the input
remaining after the match, passed through on success). -/
def applyAct (P : PParams) : ℕ → ActId → List Node → Str → POut
  | 0, _, _, _ => .oof
  | f + 1, a, toks, rest =>
    match a with
    | .restrictedWordFrags =>
        (match toks.mapM (fun t => match t with
           | .str u => some (Fragment_mk u 1)
           | _ => none) with
         | some fs => .ok rest fs
         | none => .err .assertionError)
    | .commaFragment =>
        (match toks with
         | .str u :: _ => .ok rest [Fragment_mk u 1]
         | _ => .err .indexError)
    | .unrestrictedWordFrag =>
        (match toks with
         | .str u :: _ => .ok rest [Fragment_mk u 1]
         | _ => .err .indexError)
    | .tokenFloat =>
        (match toks with
         | [.str u] =>
             (match pyFloatOfStr u with
              | .ok q => .ok rest [.num q]
              | .error e' => .err e')
         | _ => .err .assertionError)
    | .tokenStr =>
        (match toks with
         | [.num q] => .ok rest [.str (ratToFloatStr q)]
         | [.str u] => .ok rest [.str u]
         | _ => .err .assertionError)
    | .parseQuotedFragment => parseFragmentStr P f .fragment toks rest
    | .parseQuotedPrompt => parseFragmentStr P f .prompt toks rest
    | .makeAttention =>
        (match toks with
         | [.group children, wtok] =>
             let weight : Q := match wtok with
               | .num q => q
               | .str u =>
                   (match u with
                    | '+' :: _ => P.plusBase ^ u.length
                    | _ => P.minusBase ^ u.length)
               | _ => 1
             .ok rest [Attention_mk weight children]
         | _ => .err .assertionError)
    | .makeOperator =>
        (match toks with
         | x0 :: .str op :: x2 :: restToks =>
             if op = cs ".swap" then
               match x0, x2 with
               | .group target, .group args =>
                   (match CACS_mk P.cbrt target args (some (asDict restToks)) with
                    | .ok n => .ok rest [n]
                    | .error e' => .err e')
               | _, _ => .err .assertionError
             else if op = cs ".blend" then
               match x0, x2 with
               | .group targets, .group opts => blendFromParse targets opts rest
               | _, _ => .err .assertionError
             else .err (.unrecognizedOperator op)
         | _ => .err .assertionError)
    | .makeConjunction =>
        (match Conjunction_mk toks none with
         | .ok n => .ok rest [n]
         | .error e' => .err e')

/-- `parse_fragment_str(x, expression, in_quotes=True)`: empty content maps
to `Fragment('')`; otherwise quotes are re-escaped and the content is
re-parsed with `(expression + StringEnd())` (whose `parse_string` expands
tabs again); a `ParseException` from the nested parse propagates, so the
enclosing quoted element behaves as a failed match. -/
def parseFragmentStr (P : PParams) : ℕ → GId → List Node → Str → POut
  | 0, _, _, _ => .oof
  | f + 1, g, toks, rest =>
    match toks with
    | [.str content] =>
        if (pyStrip content).length = 0 then .ok rest [Fragment_mk [] 1]
        else
          match runE P f (.seq [.ref g, .strEnd]) true (expandtabs (replace1 '"' (cs "\\\"") content)) with
          | .ok _ t => .ok rest t
          | .fail => .fail
          | x => x
    | _ => .err .indexError

end

/-- `PromptParser.parse_conjunction(prompt)`: empty-after-strip input takes
the fixed early return; otherwise the top-level grammar runs on the
tab-expanded input and the first parse result is flattened.  `none` means
the evaluation fuel was insufficient. -/
def parse_conjunction (P : PParams) (fuel : ℕ) (s : Str) : Option (Except PErr Node) :=
  if (pyStrip s).length = 0 then
    some (Conjunction_mk [.flattened [Fragment_mk (cs "") 1]] (some [1]))
  else
    match runE P fuel (.ref .conjunction) true (expandtabs s) with
    | .oof => none
    | .ok _ (root :: _) => some (flatten P.cbrt root)
    | .ok _ [] => some (.error .indexError)
    | .fail => some (.error .parseException)
    | .err e => some (.error e)

/-- The `prompt` capture group of the legacy regex: a maximal run of
escaped colons `\\:` or non-colon characters.  Returns the matched run and
the rest (which is empty or starts with `:`). -/
def legacyPrompt : Str → Str × Str
  | [] => ([], [])
  | '\\' :: ':' :: r =>
      let p := legacyPrompt r
      ('\\' :: ':' :: p.1, p.2)
  | c :: r =>
      if c = ':' then ([], c :: r)
      else
        let p := legacyPrompt r
        (c :: p.1, p.2)

theorem legacyPrompt_rest_le (s : Str) : (legacyPrompt s).2.length ≤ s.length := by
  induction s using legacyPrompt.induct <;> simp_all [legacyPrompt] <;> omega

/-- The optional `weight` group `-?\d+(?:\.\d+)?` of the legacy regex:
returns the parsed value (if the group matches) and the number of
characters it consumed. -/
def legacyWeightLen (s : Str) : Option Q × ℕ :=
  let neg : Bool := match s with | '-' :: _ => true | _ => false
  let t := match s with | '-' :: r => r | _ => s
  let sgn := s.length - t.length
  let d1 := t.takeWhile Char.isDigit
  if d1.isEmpty then (none, 0)
  else
    match t.drop d1.length with
    | '.' :: u =>
        let d2 := u.takeWhile Char.isDigit
        if d2.isEmpty then (some (decimalRat neg d1 []), sgn + d1.length)
        else (some (decimalRat neg d1 d2), sgn + d1.length + 1 + d2.length)
    | _ => (some (decimalRat neg d1 []), sgn + d1.length)

/-- One match of the legacy regex starting at a position whose head is not
`:`: the prompt run, then either end-of-string, or one-or-more colons with
the optional weight and trailing whitespace (`\s*`, Python's unicode
whitespace).  Returns the (prompt, weight) entry and the rest of the input
(empty when the `$` alternative matched, so the scan stops). -/
def legacyMatchRest (c : Char) (r : Str) : (Str × Option Q) × Str :=
  match legacyPrompt (c :: r) with
  | (p, []) => ((p, none), [])
  | (p, ':' :: r1) =>
      let r2 := (':' :: r1).dropWhile (· = ':')
      let wk := legacyWeightLen r2
      ((p, wk.1), (r2.drop wk.2).dropWhile pyIsSpace)
  | (p, _ :: _) => ((p, none), [])

theorem dropWhile_length_le {α : Type} (p : α → Bool) (l : List α) :
    (l.dropWhile p).length ≤ l.length := by
  induction l with
  | nil => simp [List.dropWhile]
  | cons c r ih =>
      rw [List.dropWhile]
      split
      · exact Nat.le_trans ih (by simp)
      · simp

theorem legacyMatchRest_lt (c : Char) (r : Str) :
    (legacyMatchRest c r).2.length < (c :: r).length := by
  have hp := legacyPrompt_rest_le (c :: r)
  unfold legacyMatchRest
  split
  · simp
  · rename_i p r1 heq
    rw [heq] at hp
    have hd : (':' :: r1).dropWhile (· = ':') = r1.dropWhile (· = ':') := by
      simp [List.dropWhile]
    rw [hd]
    have h3 : (r1.dropWhile (· = ':')).length ≤ r1.length := dropWhile_length_le _ _
    have h4 := List.length_drop (legacyWeightLen (r1.dropWhile (· = ':'))).2
      (r1.dropWhile (· = ':'))
    have h5 : (((r1.dropWhile (· = ':')).drop
        (legacyWeightLen (r1.dropWhile (· = ':'))).2).dropWhile pyIsSpace).length ≤
        ((r1.dropWhile (· = ':')).drop
        (legacyWeightLen (r1.dropWhile (· = ':'))).2).length := dropWhile_length_le _ _
    simp only [List.length_cons] at hp h3 h4 h5 ⊢
    omega
  · simp

/-- `re.finditer` of the legacy sub-prompt regex: positions that cannot
start a match (a leading `:`) are skipped one character at a time, matches
continue where the previous one ended. -/
def splitAux : Str → List (Str × Option Q)
  | [] => []
  | c :: r =>
    if c = ':' then splitAux r
    else (legacyMatchRest c r).1 :: splitAux (legacyMatchRest c r).2
termination_by s => s.length
decreasing_by
  · simp
  · exact legacyMatchRest_lt _ _

/-- `split_weighted_subprompts(text, skip_normalize)`: run the legacy regex,
unescape `\\:` and default missing weights to 1; unless normalization is
skipped, zero-sum weights fall back to equal weights `1/N`, otherwise each
weight is divided by the sum. -/
def split_weighted_subprompts (text : Str) (skipNormalize : Bool) : List (Str × Q) :=
  let parsedPrompts := (splitAux text).map
    (fun pw => (replace2 '\\' ':' (cs ":") pw.1, pw.2.getD 1))
  if skipNormalize then parsedPrompts
  else
    let weightSum := (parsedPrompts.map Prod.snd).foldl (· + ·) (0 : Q)
    if weightSum = (0 : Q) then
      parsedPrompts.map (fun x => (x.1, (1 : Q) / Q.ofN (max parsedPrompts.length 1)))
    else
      parsedPrompts.map (fun x => (x.1, x.2 / weightSum))

/-- `PromptParser.parse_legacy_blend(text)`: `None` when at most one
sub-prompt is found, otherwise each sub-prompt string is parsed through
`parse_conjunction`, the first prompt of each result is taken, and the
whole set becomes a normalizing `Blend`.  The outer `Option` is the fuel
artifact of `parse_conjunction`. -/
def parse_legacy_blend (P : PParams) (fuel : ℕ) (text : Str) :
    Option (Except PErr (Option Node)) :=
  let weightedSubprompts := split_weighted_subprompts text false
  if weightedSubprompts.length ≤ 1 then some (.ok none)
  else
    let strings := weightedSubprompts.map Prod.fst
    let weights := weightedSubprompts.map Prod.snd
    match strings.mapM (parse_conjunction P fuel) with
    | none => none
    | some results =>
        some (do
          let conjs ← results.mapM id
          let flattenedPrompts ← conjs.mapM (fun c => match c with
            | .conjunction (p :: _) _ => Except.ok p
            | .conjunction [] _ => Except.error .indexError
            | _ => Except.error .attributeError)
          let b ← Blend_mk flattenedPrompts weights true
          Except.ok (some b))

/-- Reduction lemmas for the `Except PErr` monad used by the embedding. -/
theorem perrBindOk {α β : Type} (a : α) (f : α → Except PErr β) :
    Bind.bind (Except.ok a) f = f a := rfl

theorem perrBindErr {α β : Type} (e : PErr) (f : α → Except PErr β) :
    Bind.bind (Except.error e : Except PErr α) f = Except.error e := rfl

theorem perrPureOk {α : Type} (a : α) : (pure a : Except PErr α) = Except.ok a := rfl

/-- `PromptParser()` defaults: `attention_plus_base=1.1`,
`attention_minus_base=0.9` (the cube root is irrelevant to inputs without
`shape_freedom`; any function witnesses it). -/
def defaultParams : PParams := ⟨11 / 10, 9 / 10, fun q => q⟩

mutual

/-- Deep test for a `CrossAttentionControlSubstitute` anywhere in a node. -/
def containsCacs : Node → Bool
  | .cacs _ _ _ => true
  | .attention _ c => containsCacsL c
  | .prompt c => containsCacsL c
  | .flattened c => containsCacsL c
  | .group c => containsCacsL c
  | .blend p _ _ => containsCacsL p
  | .conjunction p _ => containsCacsL p
  | _ => false

def containsCacsL : List Node → Bool
  | [] => false
  | x :: r => containsCacs x || containsCacsL r

end

/-- `Attention.__eq__(self, other)`: `type(other) is Attention and
other.weight == self.weight and other.fragment == self.fragment` — the
`and` chain short-circuits left to right, and the final comparison reads
the `fragment` attribute that `Attention.__init__` never defines, raising
`AttributeError`; with a non-`Attention` `other` or unequal weights the
chain returns `False` first. -/
def Attention_eq (selfWeight : Q) (other : Node) : Except PErr Bool :=
  match other with
  | .attention otherWeight _ =>
      if otherWeight = selfWeight then .error .attributeError else .ok false
  | _ => .ok false

/-- Fuelled, kernel-reducible twin of `fuseStep` (used only to evaluate
concrete instances; `fuseStepF_sound` transfers results to `fuseStep`).
`none` means the fuel ran out. -/
def fuseStepF (cbrt : Q → Q) : ℕ → List Node → List Node → Option (Except PErr (List Node))
  | 0, _, _ => none
  | f + 1, result, items =>
    match items with
    | [] => some (.ok result)
    | .cacs o e opts :: rest =>
        (match fuseStepF cbrt f [] o with
         | none => none
         | some (.error er) => some (.error er)
         | some (.ok origFused) =>
           match fuseStepF cbrt f [] e with
           | none => none
           | some (.error er) => some (.error er)
           | some (.ok editedFused) =>
             match CACS_mk cbrt origFused editedFused (some opts) with
             | .error er => some (.error er)
             | .ok n => fuseStepF cbrt f (result ++ [n]) rest)
    | .fragment t w :: rest =>
        (match result.getLast? with
         | some (.fragment lastText lastWeight) =>
             if lastWeight = w then
               fuseStepF cbrt f (result.dropLast ++ [Fragment_mk (lastText ++ ' ' :: t) lastWeight]) rest
             else fuseStepF cbrt f (result ++ [.fragment t w]) rest
         | some (.cacs a b c) => fuseStepF cbrt f (result ++ [.fragment t w]) rest
         | some _ => some (.error .attributeError)
         | none => fuseStepF cbrt f (result ++ [.fragment t w]) rest)
    | _ :: _ => some (.error .attributeError)

theorem fuseStepF_sound (cbrt : Q → Q) :
    ∀ (f : ℕ) (result items : List Node) (r : Except PErr (List Node)),
      fuseStepF cbrt f result items = some r → fuseStep cbrt result items = r := by
  intro f
  induction f with
  | zero => intro result items r h; simp [fuseStepF] at h
  | succ f ih =>
      intro result items r h
      match items with
      | [] =>
          simp [fuseStepF] at h
          simp [fuseStep, h]
      | .cacs o e opts :: rest =>
          simp only [fuseStepF] at h
          simp only [fuseStep]
          cases ho : fuseStepF cbrt f [] o with
          | none => rw [ho] at h; simp at h
          | some ro =>
            rw [ho] at h
            have hgo := ih [] o ro ho
            rw [hgo]
            cases ro with
            | error er =>
                simp at h
                simp [perrBindErr, ← h]
            | ok origFused =>
                simp only [perrBindOk]
                simp only [] at h
                cases he : fuseStepF cbrt f [] e with
                | none => rw [he] at h; simp at h
                | some re =>
                  rw [he] at h
                  have hge := ih [] e re he
                  rw [hge]
                  cases re with
                  | error er =>
                      simp at h
                      simp [perrBindErr, ← h]
                  | ok editedFused =>
                      simp only [perrBindOk]
                      simp only [] at h
                      cases hc : CACS_mk cbrt origFused editedFused (some opts) with
                      | error er =>
                          rw [hc] at h
                          simp at h
                          simp [perrBindErr, ← h]
                      | ok n =>
                          rw [hc] at h
                          simp only [perrBindOk]
                          simp at h
                          exact ih _ rest r h
      | .fragment t w :: rest =>
          simp only [fuseStepF] at h
          simp only [fuseStep]
          cases hl : result.getLast? with
          | none =>
              rw [hl] at h
              exact ih _ rest r h
          | some last =>
            rw [hl] at h
            cases last with
            | fragment lastText lastWeight =>
                simp only [List.cons.injEq] at h ⊢
                by_cases hw : lastWeight = w
                · simp only [if_pos hw] at h ⊢
                  exact ih _ rest r h
                · simp only [if_neg hw] at h ⊢
                  exact ih _ rest r h
            | cacs a b c => exact ih _ rest r h
            | str u => simp at h; simp [← h]
            | num q => simp at h; simp [← h]
            | attention a b => simp at h; simp [← h]
            | blend a b c => simp at h; simp [← h]
            | prompt a => simp at h; simp [← h]
            | flattened a => simp at h; simp [← h]
            | conjunction a b => simp at h; simp [← h]
            | group a => simp at h; simp [← h]
      | .str u :: rest => simp [fuseStepF] at h; simp [fuseStep, ← h]
      | .num q :: rest => simp [fuseStepF] at h; simp [fuseStep, ← h]
      | .attention a b :: rest => simp [fuseStepF] at h; simp [fuseStep, ← h]
      | .blend a b c :: rest => simp [fuseStepF] at h; simp [fuseStep, ← h]
      | .prompt a :: rest => simp [fuseStepF] at h; simp [fuseStep, ← h]
      | .flattened a :: rest => simp [fuseStepF] at h; simp [fuseStep, ← h]
      | .conjunction a b :: rest => simp [fuseStepF] at h; simp [fuseStep, ← h]
      | .group a :: rest => simp [fuseStepF] at h; simp [fuseStep, ← h]

mutual

/-- Fuelled, kernel-reducible twin of `flatten_internal` (evaluation aid;
`flatten_internalF_sound` transfers results).  `none` means out of fuel. -/
def flatten_internalF (cbrt : Q → Q) : ℕ → Q → Node → Option (Except PErr (List Node))
  | 0, _, _ => none
  | f + 1, weight_scale, node =>
    match node with
    | .group items => flattenListF cbrt f weight_scale items
    | .attention w children => flattenListF cbrt f (weight_scale * w) children
    | .fragment t w => some (.ok [Fragment_mk t (w * weight_scale)])
    | .cacs o e opts =>
        (match flattenListF cbrt f weight_scale o with
         | none => none
         | some (.error er) => some (.error er)
         | some (.ok original) =>
           match flattenListF cbrt f weight_scale e with
           | none => none
           | some (.error er) => some (.error er)
           | some (.ok edited) =>
             match CACS_mk cbrt original edited (some opts) with
             | .error er => some (.error er)
             | .ok n => some (.ok [n]))
    | .blend prompts weights normalize =>
        (match flattenListF cbrt f weight_scale prompts with
         | none => none
         | some (.error er) => some (.error er)
         | some (.ok flattenedSubprompts) =>
           match Blend_mk flattenedSubprompts weights normalize with
           | .error er => some (.error er)
           | .ok b => some (.ok [b]))
    | .prompt children =>
        (match flattenListF cbrt f weight_scale children with
         | none => none
         | some (.error er) => some (.error er)
         | some (.ok flattenedPrompt) =>
           match fuseStepF cbrt f [] flattenedPrompt with
           | none => none
           | some (.error er) => some (.error er)
           | some (.ok fused) =>
             match FlattenedPrompt_mk fused with
             | .error er => some (.error er)
             | .ok fl => some (.ok [fl]))
    | _ => some (.error .parsingException)

/-- Fuelled twin of `flattenList`. -/
def flattenListF (cbrt : Q → Q) : ℕ → Q → List Node → Option (Except PErr (List Node))
  | 0, _, _ => none
  | f + 1, scale, items =>
    match items with
    | [] => some (.ok [])
    | x :: rest =>
        (match flatten_internalF cbrt f scale x with
         | none => none
         | some (.error er) => some (.error er)
         | some (.ok r1) =>
           match flattenListF cbrt f scale rest with
           | none => none
           | some (.error er) => some (.error er)
           | some (.ok r2) => some (.ok (r1 ++ r2)))

end

theorem flattenF_sound_aux (cbrt : Q → Q) :
    ∀ (f : ℕ),
      (∀ (ws : Q) (n : Node) (r : Except PErr (List Node)),
        flatten_internalF cbrt f ws n = some r → flatten_internal cbrt ws n = r) ∧
      (∀ (ws : Q) (xs : List Node) (r : Except PErr (List Node)),
        flattenListF cbrt f ws xs = some r → flattenList cbrt ws xs = r) := by
  intro f
  induction f with
  | zero =>
      constructor
      · intro ws n r h; simp [flatten_internalF] at h
      · intro ws xs r h; simp [flattenListF] at h
  | succ f ih =>
      obtain ⟨ih1, ih2⟩ := ih
      constructor
      · intro ws n r h
        match n with
        | .group items =>
            simp only [flatten_internalF] at h
            simp only [flatten_internal]
            exact ih2 _ items r h
        | .attention w children =>
            simp only [flatten_internalF] at h
            simp only [flatten_internal]
            exact ih2 _ children r h
        | .fragment t w =>
            simp only [flatten_internalF] at h
            simp at h
            simp [flatten_internal, ← h]
        | .cacs o e opts =>
            simp only [flatten_internalF] at h
            simp only [flatten_internal]
            cases ho : flattenListF cbrt f ws o with
            | none => rw [ho] at h; simp at h
            | some ro =>
              rw [ho] at h
              rw [ih2 _ o ro ho]
              cases ro with
              | error er => simp at h; simp [perrBindErr, ← h]
              | ok original =>
                  simp only [perrBindOk]
                  simp only [] at h
                  cases he : flattenListF cbrt f ws e with
                  | none => rw [he] at h; simp at h
                  | some re =>
                    rw [he] at h
                    rw [ih2 _ e re he]
                    cases re with
                    | error er => simp at h; simp [perrBindErr, ← h]
                    | ok edited =>
                        simp only [perrBindOk]
                        simp only [] at h
                        cases hc : CACS_mk cbrt original edited (some opts) with
                        | error er => rw [hc] at h; simp at h; simp [perrBindErr, ← h]
                        | ok nn => rw [hc] at h; simp at h; simp [perrBindOk, ← h]
        | .blend prompts weights normalize =>
            simp only [flatten_internalF] at h
            simp only [flatten_internal]
            cases hp : flattenListF cbrt f ws prompts with
            | none => rw [hp] at h; simp at h
            | some rp =>
              rw [hp] at h
              rw [ih2 _ prompts rp hp]
              cases rp with
              | error er => simp at h; simp [perrBindErr, ← h]
              | ok flattenedSubprompts =>
                  simp only [perrBindOk]
                  simp only [] at h
                  cases hb : Blend_mk flattenedSubprompts weights normalize with
                  | error er => rw [hb] at h; simp at h; simp [perrBindErr, ← h]
                  | ok b => rw [hb] at h; simp at h; simp [perrBindOk, ← h]
        | .prompt children =>
            simp only [flatten_internalF] at h
            simp only [flatten_internal]
            cases hp : flattenListF cbrt f ws children with
            | none => rw [hp] at h; simp at h
            | some rp =>
              rw [hp] at h
              rw [ih2 _ children rp hp]
              cases rp with
              | error er => simp at h; simp [perrBindErr, ← h]
              | ok flattenedPrompt =>
                  simp only [perrBindOk]
                  simp only [] at h
                  cases hf : fuseStepF cbrt f [] flattenedPrompt with
                  | none => rw [hf] at h; simp at h
                  | some rf =>
                    rw [hf] at h
                    have : fuse_fragments cbrt flattenedPrompt = rf :=
                      fuseStepF_sound cbrt f [] flattenedPrompt rf hf
                    rw [this]
                    cases rf with
                    | error er => simp at h; simp [perrBindErr, ← h]
                    | ok fused =>
                        simp only [perrBindOk]
                        simp only [] at h
                        cases hfl : FlattenedPrompt_mk fused with
                        | error er => rw [hfl] at h; simp at h; simp [perrBindErr, ← h]
                        | ok fl => rw [hfl] at h; simp at h; simp [perrBindOk, ← h]
        | .str u => simp [flatten_internalF] at h; simp [flatten_internal, ← h]
        | .num q => simp [flatten_internalF] at h; simp [flatten_internal, ← h]
        | .flattened a => simp [flatten_internalF] at h; simp [flatten_internal, ← h]
        | .conjunction a b => simp [flatten_internalF] at h; simp [flatten_internal, ← h]
      · intro ws xs r h
        match xs with
        | [] => simp [flattenListF] at h; simp [flattenList, ← h]
        | x :: rest =>
            simp only [flattenListF] at h
            simp only [flattenList]
            cases h1 : flatten_internalF cbrt f ws x with
            | none => rw [h1] at h; simp at h
            | some r1 =>
              rw [h1] at h
              rw [ih1 _ x r1 h1]
              cases r1 with
              | error er => simp at h; simp [perrBindErr, ← h]
              | ok v1 =>
                  simp only [perrBindOk]
                  simp only [] at h
                  cases h2 : flattenListF cbrt f ws rest with
                  | none => rw [h2] at h; simp at h
                  | some r2 =>
                    rw [h2] at h
                    rw [ih2 _ rest r2 h2]
                    cases r2 with
                    | error er => simp at h; simp [perrBindErr, ← h]
                    | ok v2 => simp at h; simp [perrBindOk, ← h]

/-- Fuelled twin of `flatten`. -/
def flattenF (cbrt : Q → Q) (f : ℕ) : Node → Option (Except PErr Node)
  | .conjunction prompts weights =>
      (match flattenListF cbrt f 1 prompts with
       | none => none
       | some (.error er) => some (.error er)
       | some (.ok flattenedParts) => some (Conjunction_mk flattenedParts (some weights)))
  | _ => some (.error .attributeError)

theorem flattenF_sound (cbrt : Q → Q) (f : ℕ) (n : Node) (r : Except PErr Node)
    (h : flattenF cbrt f n = some r) : flatten cbrt n = r := by
  match n with
  | .conjunction prompts weights =>
      simp only [flattenF] at h
      simp only [flatten]
      cases hp : flattenListF cbrt f 1 prompts with
      | none => rw [hp] at h; simp at h
      | some rp =>
        rw [hp] at h
        rw [(flattenF_sound_aux cbrt f).2 _ prompts rp hp]
        cases rp with
        | error er => simp at h; simp [perrBindErr, ← h]
        | ok flattenedParts => simp at h; simp [perrBindOk, ← h]
  | .str u => simp [flattenF] at h; simp [flatten, ← h]
  | .num q => simp [flattenF] at h; simp [flatten, ← h]
  | .fragment t w => simp [flattenF] at h; simp [flatten, ← h]
  | .attention a b => simp [flattenF] at h; simp [flatten, ← h]
  | .cacs a b c => simp [flattenF] at h; simp [flatten, ← h]
  | .blend a b c => simp [flattenF] at h; simp [flatten, ← h]
  | .prompt a => simp [flattenF] at h; simp [flatten, ← h]
  | .flattened a => simp [flattenF] at h; simp [flatten, ← h]
  | .group a => simp [flattenF] at h; simp [flatten, ← h]

/-- Fuelled twin of `parse_conjunction` whose flatten step runs through
`flattenF` (second fuel argument), so that concrete runs reduce inside the
kernel; `parse_conjunctionF_sound` transfers results. -/
def parse_conjunctionF (P : PParams) (fuel ffuel : ℕ) (s : Str) :
    Option (Except PErr Node) :=
  if (pyStrip s).length = 0 then
    some (Conjunction_mk [.flattened [Fragment_mk (cs "") 1]] (some [1]))
  else
    match runE P fuel (.ref .conjunction) true (expandtabs s) with
    | .oof => none
    | .ok _ (root :: _) => flattenF P.cbrt ffuel root
    | .ok _ [] => some (.error .indexError)
    | .fail => some (.error .parseException)
    | .err e => some (.error e)

theorem parse_conjunctionF_sound (P : PParams) (fuel ffuel : ℕ) (s : Str)
    (r : Except PErr Node) (h : parse_conjunctionF P fuel ffuel s = some r) :
    parse_conjunction P fuel s = some r := by
  unfold parse_conjunctionF at h
  unfold parse_conjunction
  by_cases h0 : (pyStrip s).length = 0
  · rw [if_pos h0] at h ⊢; exact h
  · rw [if_neg h0] at h ⊢
    cases hr : runE P fuel (.ref .conjunction) true (expandtabs s) with
    | oof => rw [hr] at h; simp at h
    | ok rest toks =>
        rw [hr] at h
        cases toks with
        | nil => exact h
        | cons root more =>
            have h2 : flattenF P.cbrt ffuel root = some r := h
            show some (flatten P.cbrt root) = some r
            rw [flattenF_sound P.cbrt ffuel root r h2]
    | fail => rw [hr] at h; exact h
    | err e => rw [hr] at h; exact h

/-- Text/weight pairs of a list of `Fragment` nodes (projection used to
compare parse results against expected fragment lists). -/
def fragmentPairs (ns : List Node) : List (Str × Q) :=
  ns.map (fun n => match n with
    | .fragment t w => (t, w)
    | _ => ([], 0))

/-- C1: the spec's weight-composition example.  On this snapshot
`parse_conjunction("2.0(flames 1.5(trees))")` parses (the grammar's
`attention` element at line 533 only accepts the suffix form
`target` `+`/`-`/number, never `number(...)`), and the flattened result is
the four fragments `[("2", 0.0), ("flames", 1.0), ("1", 0.5),
("trees", 1.0)]` — not the two multiplicatively weighted fragments
`[("flames", 2.0), ("trees", 3.0)]` that the spec (and the repository's own
`src/tests/test_prompt_parser.py::test_nested`) require. -/
theorem c1_suffix_attention_actual_behavior :
    parse_conjunction defaultParams 3000 (cs "2.0(flames 1.5(trees))") =
      some (.ok (.conjunction
        [.flattened
          [.fragment (cs "2") ⟨0, 1⟩,
           .fragment (cs "flames") ⟨1, 1⟩,
           .fragment (cs "1") ⟨1, 2⟩,
           .fragment (cs "trees") ⟨1, 1⟩]]
        [⟨1, 1⟩])) ∧
    fragmentPairs
        [.fragment (cs "2") ⟨0, 1⟩,
         .fragment (cs "flames") ⟨1, 1⟩,
         .fragment (cs "1") ⟨1, 2⟩,
         .fragment (cs "trees") ⟨1, 1⟩] ≠
      [(cs "flames", ⟨2, 1⟩), (cs "trees", ⟨3, 1⟩)] :=
  ⟨parse_conjunctionF_sound defaultParams 3000 200 _ _ rfl, by decide⟩

/-- C2: a blend whose options end with the bare token `no_normalize`.
`make_operator` (line 380) converts every blend option with `float(...)`,
so the bare word raises `ValueError` and no `Blend` is produced at all;
the same blend without the flag yields a `Blend` with
`normalize_weights=True` and the raw weights `[1.0, 2.0]`.  (The intended
behaviour survives in `prompt_parser_old.py` lines 244-257 and in the
repository's tests.) -/
theorem c2_no_normalize_value_error :
    parse_conjunction defaultParams 3000
        (cs "(\"fire\", \"water\").blend(1,2,no_normalize)") =
      some (.error .valueError) ∧
    parse_conjunction defaultParams 3000
        (cs "(\"fire\", \"water\").blend(1,2)") =
      some (.ok (.conjunction
        [.blend
          [.flattened [.fragment (cs "fire") ⟨1, 1⟩],
           .flattened [.fragment (cs "water") ⟨1, 1⟩]]
          [⟨1, 1⟩, ⟨2, 1⟩] true]
        [⟨1, 1⟩])) :=
  ⟨parse_conjunctionF_sound defaultParams 3000 200 _ _ rfl,
   parse_conjunctionF_sound defaultParams 3000 200 _ _ rfl⟩

/-- C3 counterexample: `"cat.grow(dog)"` — a token followed by the
`.`-suffixed operator name `grow` — does not raise the unrecognized
operator error: the whole input matches `unrestricted_word` and parsing
succeeds with the literal fragment `("cat.grow(dog)", 1.0)`. -/
theorem c3_unrecognized_operator_counterexample :
    parse_conjunction defaultParams 3000 (cs "cat.grow(dog)") =
      some (.ok (.conjunction
        [.flattened [.fragment (cs "cat.grow(dog)") ⟨1, 1⟩]] [⟨1, 1⟩])) :=
  parse_conjunctionF_sound defaultParams 3000 200 _ _ rfl

/-- C3 (amended): `UnrecognizedOperatorException` lives only inside
`make_operator`, which fires it for an operator token other than `.swap`
and `.blend`; but the grammar attaches `make_operator` only to elements
whose operator is the hard-coded literal `".swap"` or `".blend"`, so no
input reaches it with any other name — an unknown operator like `.grow`
is simply parsed as literal fragment text. -/
theorem c3_unrecognized_operator_amended (P : PParams) (f : ℕ)
    (x0 x2 : Node) (restToks : List Node) (op rest : Str)
    (h1 : op ≠ cs ".swap") (h2 : op ≠ cs ".blend") :
    applyAct P (f + 1) .makeOperator (x0 :: .str op :: x2 :: restToks) rest =
      .err (.unrecognizedOperator op) := by
  simp only [applyAct]
  rw [if_neg h1, if_neg h2]

/-- C3 witness: the amended theorem applied at the operator `.grow`. -/
theorem c3_unrecognized_operator_witness :
    applyAct defaultParams 1 .makeOperator
        [.group [], .str (cs ".grow"), .group []] (cs "") =
      .err (.unrecognizedOperator (cs ".grow")) :=
  c3_unrecognized_operator_amended defaultParams 0 (.group []) (.group []) []
    (cs ".grow") (cs "") (by decide) (by decide)

theorem blendCheckPrompt_cases (n : Node) :
    blendCheckPrompt n = .ok () ∨ blendCheckPrompt n = .error .parsingException := by
  cases n <;> first
    | (right; rfl)
    | (rename_i c
       by_cases hc : c.any Node.isCacs
       · right; simp [blendCheckPrompt, hc]
       · left; simp [blendCheckPrompt, hc])

theorem mapM_blendCheckPrompt_error (prompts : List Node)
    (h : ∃ p ∈ prompts, blendCheckPrompt p = .error .parsingException) :
    prompts.mapM blendCheckPrompt = .error .parsingException := by
  induction prompts with
  | nil => simp at h
  | cons x rest ih =>
      obtain ⟨p, hmem, hp⟩ := h
      rw [List.mapM_cons]
      rcases List.mem_cons.mp hmem with rfl | hmem'
      · rw [hp]; rfl
      · rcases blendCheckPrompt_cases x with hx | hx <;> rw [hx]
        · rw [perrBindOk, ih ⟨p, hmem', hp⟩]; rfl
        · rfl

/-- C5 (amended): `Blend.__init__`'s substitute check is shallow — it scans
only the *direct* children of each child prompt.  Whenever some child
prompt has a `CrossAttentionControlSubstitute` among its direct children,
constructing the `Blend` raises `ParsingException`; but a substitute nested
deeper (e.g. inside an `Attention` child of a `Prompt`) is not seen, so a
`Blend` containing a substitute can exist (see the counterexample). -/
theorem c5_blend_shallow_cacs_amended (prompts : List Node) (weights : List Q)
    (normalize : Bool)
    (h : ∃ p ∈ prompts, (Node.childrenOf p).any Node.isCacs) :
    Blend_mk prompts weights normalize = .error .parsingException := by
  unfold Blend_mk
  by_cases hl : prompts.length ≠ weights.length
  · rw [if_pos hl]
  · rw [if_neg hl]
    obtain ⟨p, hmem, hp⟩ := h
    have hchk : blendCheckPrompt p = .error .parsingException := by
      cases p <;> simp [Node.childrenOf] at hp <;> simp [blendCheckPrompt, hp]
    rw [mapM_blendCheckPrompt_error prompts ⟨p, hmem, hchk⟩]
    rfl

/-- C5 counterexample: the claim's consequence ("no Blend that exists
contains a substitution node in a child") is false — a `Prompt` child whose
substitute sits below an `Attention` node passes the shallow check, so the
`Blend` is constructed even though it contains a substitute. -/
theorem c5_blend_nested_cacs_counterexample :
    Blend_mk [.prompt [.attention ⟨1, 1⟩ [.cacs [] [] []]]] [⟨1, 1⟩] true =
      .ok (.blend [.prompt [.attention ⟨1, 1⟩ [.cacs [] [] []]]] [⟨1, 1⟩] true) ∧
    containsCacs (.prompt [.attention ⟨1, 1⟩ [.cacs [] [] []]]) = true :=
  ⟨rfl, by simp [containsCacs, containsCacsL]⟩

/-- C5 witness: the amended theorem applied to a blend child prompt with a
direct substitute child. -/
theorem c5_blend_shallow_cacs_witness :
    Blend_mk [.flattened [.cacs [] [] []]] [⟨1, 1⟩] true =
      .error .parsingException :=
  c5_blend_shallow_cacs_amended [.flattened [.cacs [] [] []]] [⟨1, 1⟩] true
    ⟨.flattened [.cacs [] [] []], List.Mem.head _, by decide⟩

/-- C7: an input that is empty or all (Python) whitespace strips to the
empty string, so `parse_conjunction` takes its early return: a
`Conjunction` holding exactly one `FlattenedPrompt` whose sole child is the
fragment `('', 1.0)`, with conjunction weights `[1.0]`. -/
theorem c7_whitespace_prompt_fixed_result (P : PParams) (fuel : ℕ) (s : Str)
    (h : ∀ c ∈ s, pyIsSpace c = true) :
    parse_conjunction P fuel s =
      some (.ok (.conjunction [.flattened [.fragment [] ⟨1, 1⟩]] [⟨1, 1⟩])) := by
  have h1 : s.dropWhile pyIsSpace = [] := by
    rw [List.dropWhile_eq_nil_iff]
    exact fun x hx => h x hx
  have h2 : pyStrip s = [] := by simp [pyStrip, h1]
  unfold parse_conjunction
  rw [h2]
  rfl

/-- C7 witness: the theorem applied to a three-character whitespace input
(space, tab, unicode no-break space). -/
theorem c7_whitespace_prompt_witness :
    parse_conjunction defaultParams 0 [' ', '\t', ' '] =
      some (.ok (.conjunction [.flattened [.fragment [] ⟨1, 1⟩]] [⟨1, 1⟩])) :=
  c7_whitespace_prompt_fixed_result defaultParams 0 [' ', '\t', ' ']
    (by decide)

/-- C8: constructing a `CrossAttentionControlSubstitute` with options
`{shape_freedom: 0.5}` pops the `shape_freedom` key, sets
`s_end = 1 - 0.5**(1/3)` (the cube root abstracted as `cbrt`; numerically
`1 - 0.7937...= 0.2062994740159002`), and updates the defaults with the
(now empty) remaining options: the resulting options map has exactly the
four default keys, `s_end` carries the derived value, and no
`shape_freedom` key remains. -/
theorem c8_shape_freedom_options (cbrt : Q → Q) (original edited : List Node) :
    CACS_mk cbrt original edited
        (some [(cs "shape_freedom", .num (mkQ 1 2))]) =
      .ok (.cacs original
        (if edited.isEmpty then [Fragment_mk (cs "") 1] else edited)
        [(cs "s_start", .num ⟨0, 1⟩),
         (cs "s_end", .num (1 - cbrt (mkQ 1 2))),
         (cs "t_start", .num ⟨0, 1⟩),
         (cs "t_end", .num ⟨1, 1⟩)]) ∧
    olookup (cs "shape_freedom")
        [(cs "s_start", .num ⟨0, 1⟩),
         (cs "s_end", .num (1 - cbrt (mkQ 1 2))),
         (cs "t_start", .num ⟨0, 1⟩),
         (cs "t_end", .num ⟨1, 1⟩)] = none :=
  ⟨rfl, rfl⟩

/-- C10 (amended): `Attention.__eq__` short-circuits: comparing an
`Attention` of weight `w` against another `Attention` raises
`AttributeError` (the missing `fragment` attribute is read) exactly when
the weights are equal; with unequal weights — or a non-`Attention`
operand — the comparison returns `False` without raising. -/
theorem c10_attention_eq_amended (w w' : Q) (c : List Node) :
    Attention_eq w (.attention w' c) = .error .attributeError ↔ w' = w := by
  constructor
  · intro h
    by_cases hw : w' = w
    · exact hw
    · simp [Attention_eq, hw] at h
  · intro h
    simp [Attention_eq, h]

/-- C10 counterexample: two `Attention` instances with different weights
compare to `False` — a boolean result, not an `AttributeError` — refuting
"comparing any two Attention instances raises". -/
theorem c10_attention_eq_counterexample :
    Attention_eq ⟨1, 1⟩ (.attention ⟨2, 1⟩ []) = .ok false := rfl

/-- C10 witness: the amended theorem applied at equal weights. -/
theorem c10_attention_eq_witness :
    Attention_eq ⟨2, 1⟩ (.attention ⟨2, 1⟩ []) = .error .attributeError :=
  (c10_attention_eq_amended ⟨2, 1⟩ ⟨2, 1⟩ []).mpr rfl

/-- Fuelled twin of `splitAux` (the well-founded regex scan does not reduce
in the kernel; this one does). -/
def splitAuxF : ℕ → Str → Option (List (Str × Option Q))
  | 0, _ => none
  | _ + 1, [] => some []
  | f + 1, c :: r =>
    if c = ':' then splitAuxF f r
    else
      match splitAuxF f (legacyMatchRest c r).2 with
      | none => none
      | some l => some ((legacyMatchRest c r).1 :: l)

theorem splitAuxF_sound : ∀ (f : ℕ) (s : Str) (l : List (Str × Option Q)),
    splitAuxF f s = some l → splitAux s = l := by
  intro f
  induction f with
  | zero => intro s l h; simp [splitAuxF] at h
  | succ f ih =>
      intro s l h
      match s with
      | [] =>
          simp [splitAuxF] at h
          simp [splitAux, ← h]
      | c :: r =>
          simp only [splitAuxF] at h
          rw [splitAux]
          by_cases hc : c = ':'
          · rw [if_pos hc] at h
            rw [if_pos hc]
            exact ih _ _ h
          · rw [if_neg hc] at h
            rw [if_neg hc]
            cases hm : splitAuxF f (legacyMatchRest c r).2 with
            | none => rw [hm] at h; simp at h
            | some l2 =>
                rw [hm] at h
                simp at h
                rw [ih _ _ hm, ← h]

/-- Fuelled twin of `split_weighted_subprompts`. -/
def split_weighted_subpromptsF (f : ℕ) (text : Str) (skipNormalize : Bool) :
    Option (List (Str × Q)) :=
  match splitAuxF f text with
  | none => none
  | some sa =>
    let parsedPrompts := sa.map
      (fun pw => (replace2 '\\' ':' (cs ":") pw.1, pw.2.getD 1))
    some (if skipNormalize then parsedPrompts
      else
        let weightSum := (parsedPrompts.map Prod.snd).foldl (· + ·) (0 : Q)
        if weightSum = (0 : Q) then
          parsedPrompts.map
            (fun x => (x.1, (1 : Q) / Q.ofN (max parsedPrompts.length 1)))
        else parsedPrompts.map (fun x => (x.1, x.2 / weightSum)))

theorem split_weighted_subpromptsF_sound (f : ℕ) (text : Str) (sk : Bool)
    (l : List (Str × Q)) (h : split_weighted_subpromptsF f text sk = some l) :
    split_weighted_subprompts text sk = l := by
  unfold split_weighted_subpromptsF at h
  cases hs : splitAuxF f text with
  | none => rw [hs] at h; simp at h
  | some sa =>
      rw [hs] at h
      unfold split_weighted_subprompts
      rw [splitAuxF_sound f text sa hs]
      cases h
      rfl

/-- Fuelled twin of `parse_legacy_blend` (`sfuel` drives the regex scan,
`fuel` the pyparsing evaluator, `ffuel` the flattener). -/
def parse_legacy_blendF (P : PParams) (sfuel fuel ffuel : ℕ) (text : Str) :
    Option (Except PErr (Option Node)) :=
  match split_weighted_subpromptsF sfuel text false with
  | none => none
  | some weightedSubprompts =>
    if weightedSubprompts.length ≤ 1 then some (.ok none)
    else
      match (weightedSubprompts.map Prod.fst).mapM
          (parse_conjunctionF P fuel ffuel) with
      | none => none
      | some results =>
          some (do
            let conjs ← results.mapM id
            let flattenedPrompts ← conjs.mapM (fun c => match c with
              | .conjunction (p :: _) _ => Except.ok p
              | .conjunction [] _ => Except.error .indexError
              | _ => Except.error .attributeError)
            let b ← Blend_mk flattenedPrompts
              (weightedSubprompts.map Prod.snd) true
            Except.ok (some b))

theorem mapM_parse_conjunctionF_sound (P : PParams) (fuel ffuel : ℕ) :
    ∀ (l : List Str) (rs : List (Except PErr Node)),
      l.mapM (parse_conjunctionF P fuel ffuel) = some rs →
      l.mapM (parse_conjunction P fuel) = some rs := by
  intro l
  induction l with
  | nil => intro rs h; simpa using h
  | cons x xs ih =>
      intro rs h
      rw [List.mapM_cons] at h ⊢
      cases hx : parse_conjunctionF P fuel ffuel x with
      | none => rw [hx] at h; simp at h
      | some y =>
          rw [hx] at h
          rw [parse_conjunctionF_sound P fuel ffuel x y hx]
          simp only [Option.bind_eq_bind, Option.some_bind] at h ⊢
          cases hxs : xs.mapM (parse_conjunctionF P fuel ffuel) with
          | none => rw [hxs] at h; simp at h
          | some ys =>
              rw [hxs] at h
              rw [ih ys hxs]
              exact h

theorem parse_legacy_blendF_sound (P : PParams) (sfuel fuel ffuel : ℕ)
    (text : Str) (r : Except PErr (Option Node))
    (h : parse_legacy_blendF P sfuel fuel ffuel text = some r) :
    parse_legacy_blend P fuel text = some r := by
  unfold parse_legacy_blendF at h
  cases hs : split_weighted_subpromptsF sfuel text false with
  | none => rw [hs] at h; simp at h
  | some ws =>
      rw [hs] at h
      unfold parse_legacy_blend
      rw [split_weighted_subpromptsF_sound sfuel text false ws hs]
      simp only [List.cons.injEq] at h ⊢
      by_cases hl : ws.length ≤ 1
      · rw [if_pos hl] at h ⊢; exact h
      · rw [if_neg hl] at h ⊢
        cases hm : (ws.map Prod.fst).mapM (parse_conjunctionF P fuel ffuel) with
        | none => rw [hm] at h; simp at h
        | some results =>
            rw [hm] at h
            rw [mapM_parse_conjunctionF_sound P fuel ffuel _ results hm]
            exact h

theorem Blend_mk_ok (ps : List Node) (ws : List Q) (nm : Bool) (r : Node)
    (h : Blend_mk ps ws nm = .ok r) : r = .blend ps ws nm := by
  unfold Blend_mk at h
  by_cases hl : ps.length ≠ ws.length
  · rw [if_pos hl] at h
    exact absurd h (by simp)
  · rw [if_neg hl] at h
    cases hm : ps.mapM blendCheckPrompt with
    | error e => rw [hm] at h; simp [perrBindErr] at h
    | ok u =>
        rw [hm] at h
        rw [perrBindOk] at h
        simp at h
        exact h.symm

theorem split_weighted_length (text : Str) :
    (split_weighted_subprompts text false).length = (splitAux text).length := by
  unfold split_weighted_subprompts
  simp only [Bool.false_eq_true, if_false, List.length_map]
  split <;> simp

/-- C6: legacy blends.  First part: at most one parsed sub-prompt makes
`parse_legacy_blend` return `None`.  Second part: whenever the raw
sub-prompt weights (missing weights defaulting to `1`) sum to exactly
zero and there are `n ≥ 2` sub-prompts, any `Blend` the function returns
carries the equal weights `1/n` — the zero-sum fallback replaces the
division by the weight sum. -/
theorem c6_legacy_zero_sum_blend :
    (∀ (P : PParams) (fuel : ℕ) (text : Str),
        (splitAux text).length ≤ 1 →
        parse_legacy_blend P fuel text = some (.ok none)) ∧
    (∀ (P : PParams) (fuel : ℕ) (text : Str) (b : Node),
        2 ≤ (splitAux text).length →
        ((splitAux text).map (fun pw => pw.2.getD 1)).foldl (· + ·) (0 : Q) = 0 →
        parse_legacy_blend P fuel text = some (.ok (some b)) →
        ∃ prompts, b = .blend prompts
          (List.replicate (splitAux text).length
            ((1 : Q) / Q.ofN (splitAux text).length)) true) := by
  constructor
  · intro P fuel text h1
    unfold parse_legacy_blend
    simp only [List.cons.injEq]
    rw [if_pos (by rw [split_weighted_length]; exact h1)]
  · intro P fuel text b h2 hsum hp
    have hmax : max (splitAux text).length 1 = (splitAux text).length :=
      Nat.max_eq_left (by omega)
    have hsw : split_weighted_subprompts text false =
        (splitAux text).map (fun pw => (replace2 '\\' ':' (cs ":") pw.1,
          (1 : Q) / Q.ofN (splitAux text).length)) := by
      unfold split_weighted_subprompts
      simp only [Bool.false_eq_true, if_false, List.map_map, List.length_map]
      rw [if_pos (by simpa [Function.comp] using hsum)]
      simp [Function.comp, hmax]
    have hlen : (split_weighted_subprompts text false).length =
        (splitAux text).length := split_weighted_length text
    have hweights : (split_weighted_subprompts text false).map Prod.snd =
        List.replicate (splitAux text).length
          ((1 : Q) / Q.ofN (splitAux text).length) := by
      rw [hsw, List.map_map]
      have hc : (Prod.snd ∘ fun pw : Str × Option Q =>
          (replace2 '\\' ':' (cs ":") pw.1,
           (1 : Q) / Q.ofN (splitAux text).length)) =
          fun _ => (1 : Q) / Q.ofN (splitAux text).length := rfl
      rw [hc, List.map_const']
    unfold parse_legacy_blend at hp
    simp only [List.cons.injEq] at hp
    rw [if_neg (by rw [hlen]; omega)] at hp
    cases hm : ((split_weighted_subprompts text false).map Prod.fst).mapM
        (parse_conjunction P fuel) with
    | none => rw [hm] at hp; simp at hp
    | some results =>
        rw [hm] at hp
        simp only [Option.some.injEq] at hp
        cases hc : results.mapM id with
        | error e => rw [hc] at hp; simp [perrBindErr] at hp
        | ok conjs =>
            rw [hc, perrBindOk] at hp
            cases hf : conjs.mapM (fun c => match c with
              | Node.conjunction (p :: _) _ => (Except.ok p : Except PErr Node)
              | Node.conjunction [] _ => Except.error PErr.indexError
              | _ => Except.error PErr.attributeError) with
            | error e => rw [hf] at hp; simp [perrBindErr] at hp
            | ok fps =>
                rw [hf, perrBindOk] at hp
                cases hb : Blend_mk fps
                    ((split_weighted_subprompts text false).map Prod.snd)
                    true with
                | error e => rw [hb] at hp; simp [perrBindErr] at hp
                | ok bb =>
                    rw [hb, perrBindOk] at hp
                    simp at hp
                    refine ⟨fps, ?_⟩
                    rw [← hp, Blend_mk_ok _ _ _ _ hb, hweights]

/-- C6 witness: the single-sub-prompt input `"hello"` returns `None`, and
on the zero-sum input `"a:1 b:-1"` the returned `Blend` carries the equal
weights `[1/2, 1/2]`. -/
theorem c6_legacy_zero_sum_witness :
    parse_legacy_blend defaultParams 3000 (cs "hello") = some (.ok none) ∧
    (∃ prompts,
      Node.blend
        [.flattened [.fragment (cs "a") ⟨1, 1⟩],
         .flattened [.fragment (cs "b") ⟨1, 1⟩]]
        [⟨1, 2⟩, ⟨1, 2⟩] true =
      .blend prompts (List.replicate 2 ((1 : Q) / Q.ofN 2)) true) := by
  have hs1 : splitAux (cs "hello") = [(cs "hello", none)] :=
    splitAuxF_sound 20 _ _ rfl
  have hs2 : splitAux (cs "a:1 b:-1") =
      [(cs "a", some ⟨1, 1⟩), (cs "b", some ⟨-1, 1⟩)] :=
    splitAuxF_sound 20 _ _ rfl
  constructor
  · exact c6_legacy_zero_sum_blend.1 defaultParams 3000 (cs "hello")
      (by rw [hs1]; decide)
  · have h := c6_legacy_zero_sum_blend.2 defaultParams 3000 (cs "a:1 b:-1")
      (Node.blend
        [.flattened [.fragment (cs "a") ⟨1, 1⟩],
         .flattened [.fragment (cs "b") ⟨1, 1⟩]]
        [⟨1, 2⟩, ⟨1, 2⟩] true)
      (by rw [hs2]; decide)
      (by rw [hs2]; decide)
      (parse_legacy_blendF_sound defaultParams 20 3000 200 _ _ rfl)
    rw [hs2] at h
    exact h

theorem olookup_eq_none_of_all (k : Str) (m : Options)
    (h : ∀ kv ∈ m, kv.1 ≠ k) : olookup k m = none := by
  induction m with
  | nil => rfl
  | cons kv rest ih =>
      simp only [olookup]
      rw [if_neg (h kv (List.Mem.head _))]
      exact ih (fun kv' h' => h kv' (List.Mem.tail _ h'))

theorem oerase_eq_self (k : Str) (m : Options)
    (h : ∀ kv ∈ m, kv.1 ≠ k) : oerase k m = m := by
  induction m with
  | nil => rfl
  | cons kv rest ih =>
      simp only [oerase]
      rw [if_neg (h kv (List.Mem.head _))]
      rw [ih (fun kv' h' => h kv' (List.Mem.tail _ h'))]

theorem oerase_forall (k : Str) (m : Options) :
    ∀ kv ∈ oerase k m, kv.1 ≠ k := by
  induction m with
  | nil => intro kv h; simp [oerase] at h
  | cons kv0 rest ih =>
      intro kv h
      simp only [oerase] at h
      by_cases hk : kv0.1 = k
      · rw [if_pos hk] at h; exact ih kv h
      · rw [if_neg hk] at h
        rcases List.mem_cons.mp h with rfl | h'
        · exact hk
        · exact ih kv h'

theorem oinsert_of_kfree (k : Str) (v : OVal) (m : Options)
    (h : ∀ kv ∈ m, kv.1 ≠ k) : oinsert k v m = m ++ [(k, v)] := by
  induction m with
  | nil => rfl
  | cons kv rest ih =>
      simp only [oinsert]
      rw [if_neg (h kv (List.Mem.head _))]
      rw [ih (fun kv' h' => h kv' (List.Mem.tail _ h'))]
      rfl

theorem foldl_oinsert_of_kfree :
    ∀ (extras acc : Options),
      (∀ kv ∈ extras, ∀ kv' ∈ acc, kv'.1 ≠ kv.1) →
      (extras.map Prod.fst).Nodup →
      extras.foldl (fun acc kv => oinsert kv.1 kv.2 acc) acc = acc ++ extras := by
  intro extras
  induction extras with
  | nil => intro acc _ _; simp
  | cons kv rest ih =>
      intro acc hfree hnd
      rw [List.foldl_cons]
      rw [oinsert_of_kfree kv.1 kv.2 acc (hfree kv (List.Mem.head _))]
      rw [ih (acc ++ [(kv.1, kv.2)]) ?hf ?hn]
      · simp
      case hf =>
        intro kv' hm kv'' hm'
        rcases List.mem_append.mp hm' with h1 | h1
        · exact hfree kv' (List.Mem.tail _ hm) kv'' h1
        · simp at h1
          rw [h1]
          simp only [List.map_cons, List.nodup_cons] at hnd
          intro hEq
          exact hnd.1 (hEq ▸ List.mem_map_of_mem Prod.fst hm)
      case hn =>
        simp only [List.map_cons, List.nodup_cons] at hnd
        exact hnd.2

theorem mem_keys_oinsert (k : Str) (v : OVal) (x : Str) :
    ∀ (m : Options), x ∈ (oinsert k v m).map Prod.fst →
      x = k ∨ x ∈ m.map Prod.fst := by
  intro m
  induction m with
  | nil =>
      intro h
      simp only [oinsert, List.map_cons, List.map_nil, List.mem_cons,
        List.not_mem_nil, or_false] at h
      exact Or.inl h
  | cons kv0 rest ih =>
      intro h
      simp only [oinsert] at h
      by_cases h0 : kv0.1 = k
      · rw [if_pos h0] at h
        rw [List.map_cons, List.mem_cons] at h
        rcases h with h | h
        · exact Or.inl h
        · right; rw [List.map_cons, List.mem_cons]; exact Or.inr h
      · rw [if_neg h0] at h
        rw [List.map_cons, List.mem_cons] at h
        rcases h with h | h
        · right; rw [List.map_cons, List.mem_cons]; exact Or.inl h
        · rcases ih h with h1 | h1
          · exact Or.inl h1
          · right; rw [List.map_cons, List.mem_cons]; exact Or.inr h1

/-- The five option keys `CrossAttentionControlSubstitute.__init__` treats
specially: the four defaults plus the popped `shape_freedom`. -/
def reservedOptKeys : List Str :=
  [cs "s_start", cs "s_end", cs "t_start", cs "t_end", cs "shape_freedom"]

/-- Canonical shape of a merged options map: the four default keys first,
in the default order, followed by extra entries whose (mutually distinct)
keys are none of the reserved ones. -/
def CanonOpts (m : Options) : Prop :=
  ∃ v1 v2 v3 v4 extras,
    m = (cs "s_start", v1) :: (cs "s_end", v2) :: (cs "t_start", v3) ::
      (cs "t_end", v4) :: extras ∧
    (∀ kv ∈ extras, kv.1 ∉ reservedOptKeys) ∧
    (extras.map Prod.fst).Nodup

theorem oinsert_extras_props (k : Str) (v : OVal)
    (hk : k ∉ reservedOptKeys) :
    ∀ (extras : Options), (∀ kv ∈ extras, kv.1 ∉ reservedOptKeys) →
      (extras.map Prod.fst).Nodup →
      (∀ kv ∈ oinsert k v extras, kv.1 ∉ reservedOptKeys) ∧
      ((oinsert k v extras).map Prod.fst).Nodup := by
  intro extras
  induction extras with
  | nil =>
      intro _ _
      constructor
      · intro kv h
        simp [oinsert] at h
        subst h
        exact hk
      · simp [oinsert]
  | cons kv0 rest ih =>
      intro hres hnd
      simp only [oinsert]
      simp only [List.map_cons, List.nodup_cons] at hnd
      by_cases h0 : kv0.1 = k
      · rw [if_pos h0]
        constructor
        · intro kv h
          rcases List.mem_cons.mp h with rfl | h'
          · exact hk
          · exact hres kv (List.Mem.tail _ h')
        · simp only [List.map_cons, List.nodup_cons]
          refine ⟨?_, hnd.2⟩
          rw [← h0]
          exact hnd.1
      · rw [if_neg h0]
        have ihr := ih (fun kv h => hres kv (List.Mem.tail _ h)) hnd.2
        constructor
        · intro kv h
          rcases List.mem_cons.mp h with rfl | h'
          · exact hres kv0 (List.Mem.head _)
          · exact ihr.1 kv h'
        · simp only [List.map_cons, List.nodup_cons]
          refine ⟨?_, ihr.2⟩
          intro hmem
          rcases mem_keys_oinsert k v kv0.1 rest hmem with h1 | h1
          · exact h0 h1
          · exact hnd.1 h1

theorem CanonOpts_oinsert (k : Str) (v : OVal) (m : Options)
    (hm : CanonOpts m) (hsf : k ≠ cs "shape_freedom") :
    CanonOpts (oinsert k v m) := by
  obtain ⟨v1, v2, v3, v4, extras, rfl, hres, hnd⟩ := hm
  by_cases h1 : k = cs "s_start"
  · subst h1; exact ⟨v, v2, v3, v4, extras, rfl, hres, hnd⟩
  by_cases h2 : k = cs "s_end"
  · subst h2; exact ⟨v1, v, v3, v4, extras, rfl, hres, hnd⟩
  by_cases h3 : k = cs "t_start"
  · subst h3; exact ⟨v1, v2, v, v4, extras, rfl, hres, hnd⟩
  by_cases h4 : k = cs "t_end"
  · subst h4; exact ⟨v1, v2, v3, v, extras, rfl, hres, hnd⟩
  have hk : k ∉ reservedOptKeys := by
    simp only [reservedOptKeys, List.mem_cons, List.not_mem_nil, or_false]
    push_neg
    exact ⟨h1, h2, h3, h4, hsf⟩
  have hprops := oinsert_extras_props k v hk extras hres hnd
  refine ⟨v1, v2, v3, v4, oinsert k v extras, ?_, hprops.1, hprops.2⟩
  simp only [oinsert]
  rw [if_neg (fun h => h1 h.symm), if_neg (fun h => h2 h.symm),
    if_neg (fun h => h3 h.symm), if_neg (fun h => h4 h.symm)]

theorem canon_cacsDefaults : CanonOpts cacsDefaults :=
  ⟨.num 0, .num (mkQ 2062994740159002 10000000000000000), .num 0, .num 1,
   [], rfl, by simp, by simp⟩

theorem CanonOpts_oupdate (m rest : Options) (hm : CanonOpts m)
    (hr : ∀ kv ∈ rest, kv.1 ≠ cs "shape_freedom") :
    CanonOpts (oupdate m rest) := by
  induction rest generalizing m with
  | nil => exact hm
  | cons kv r ih =>
      exact ih (oinsert kv.1 kv.2 m)
        (CanonOpts_oinsert kv.1 kv.2 m hm (hr kv (List.Mem.head _)))
        (fun kv' h => hr kv' (List.Mem.tail _ h))

theorem oupdate_defaults_of_canon (m : Options) (hm : CanonOpts m) :
    oupdate cacsDefaults m = m := by
  obtain ⟨v1, v2, v3, v4, extras, rfl, hres, hnd⟩ := hm
  show List.foldl (fun acc kv => oinsert kv.1 kv.2 acc) cacsDefaults
    ([(cs "s_start", v1), (cs "s_end", v2), (cs "t_start", v3),
      (cs "t_end", v4)] ++ extras) = _
  rw [List.foldl_append]
  have hbase : List.foldl (fun acc kv => oinsert kv.1 kv.2 acc) cacsDefaults
      [(cs "s_start", v1), (cs "s_end", v2), (cs "t_start", v3),
       (cs "t_end", v4)] =
      [(cs "s_start", v1), (cs "s_end", v2), (cs "t_start", v3),
       (cs "t_end", v4)] := rfl
  rw [hbase]
  exact foldl_oinsert_of_kfree extras _
    (by
      intro kv hkv kv' hkv'
      intro hEq
      apply hres kv hkv
      rw [← hEq]
      simp only [List.mem_cons, List.not_mem_nil, or_false] at hkv'
      rcases hkv' with h | h | h | h <;>
        (rw [h]; simp [reservedOptKeys]))
    hnd

theorem olookup_sf_of_canon (m : Options) (hm : CanonOpts m) :
    olookup (cs "shape_freedom") m = none := by
  obtain ⟨v1, v2, v3, v4, extras, rfl, hres, hnd⟩ := hm
  simp only [olookup]
  rw [if_neg (by decide), if_neg (by decide), if_neg (by decide),
    if_neg (by decide)]
  exact olookup_eq_none_of_all _ extras (by
    intro kv hkv hEq
    apply hres kv hkv
    rw [hEq]
    simp [reservedOptKeys])

theorem oerase_sf_of_canon (m : Options) (hm : CanonOpts m) :
    oerase (cs "shape_freedom") m = m := by
  obtain ⟨v1, v2, v3, v4, extras, rfl, hres, hnd⟩ := hm
  simp only [oerase]
  rw [if_neg (by decide), if_neg (by decide), if_neg (by decide),
    if_neg (by decide)]
  rw [oerase_eq_self _ extras (by
    intro kv hkv hEq
    apply hres kv hkv
    rw [hEq]
    simp [reservedOptKeys])]

theorem mergedOptions_canon (cbrt : Q → Q) (o mo : Options)
    (h : mergedOptions cbrt (some o) = .ok mo) : CanonOpts mo := by
  unfold mergedOptions at h
  simp only [List.cons.injEq] at h
  cases hl : olookup (cs "shape_freedom") o with
  | none =>
      rw [hl] at h
      simp at h
      rw [← h]
      exact CanonOpts_oupdate _ _ canon_cacsDefaults (oerase_forall _ o)
  | some v =>
      cases v with
      | num q =>
          rw [hl] at h
          simp at h
          rw [← h]
          exact CanonOpts_oupdate _ _
            (CanonOpts_oinsert _ _ _ canon_cacsDefaults (by decide))
            (oerase_forall _ o)
      | str u => rw [hl] at h; simp at h

theorem mergedOptions_idem (cbrt : Q → Q) (mo : Options) (h : CanonOpts mo) :
    mergedOptions cbrt (some mo) = .ok mo := by
  unfold mergedOptions
  simp only [olookup_sf_of_canon mo h, oerase_sf_of_canon mo h]
  rw [oupdate_defaults_of_canon mo h]

theorem CACS_mk_ok_shape (cbrt : Q → Q) (o e : List Node) (opts : Options)
    (n : Node) (h : CACS_mk cbrt o e (some opts) = .ok n) :
    ∃ mo, n = .cacs o (if e.isEmpty then [Fragment_mk (cs "") 1] else e) mo ∧
      CanonOpts mo := by
  unfold CACS_mk at h
  cases hm : mergedOptions cbrt (some opts) with
  | error er => rw [hm] at h; simp [perrBindErr] at h
  | ok mo =>
      rw [hm] at h
      simp only [perrBindOk] at h
      simp at h
      exact ⟨mo, h.symm, mergedOptions_canon cbrt opts mo hm⟩

theorem CACS_mk_rebuild (cbrt : Q → Q) (o ed : List Node) (mo : Options)
    (hed : ed ≠ []) (hmo : CanonOpts mo) :
    CACS_mk cbrt o ed (some mo) = .ok (.cacs o ed mo) := by
  unfold CACS_mk
  have he : ed.isEmpty = false := by
    cases ed
    · exact absurd rfl hed
    · rfl
  rw [he]
  rw [mergedOptions_idem cbrt mo hmo]
  rfl

theorem getLast?_decomp {α : Type} :
    ∀ (l : List α) (a : α), l.getLast? = some a → l = l.dropLast ++ [a]
  | [], a, h => by simp at h
  | [x], a, h => by
      simp at h
      simp [h]
  | x :: y :: r, a, h => by
      rw [List.getLast?_cons_cons] at h
      have hrec := getLast?_decomp (y :: r) a h
      calc x :: y :: r = x :: ((y :: r).dropLast ++ [a]) := by rw [← hrec]
        _ = (x :: y :: r).dropLast ++ [a] := by simp

/-- A node as `fuse_fragments` leaves it: a fragment, or a substitute whose
already-fused sides are fixed points of the fuser and whose stored merged
options rebuild the same node through the constructor. -/
def FusedNode (cbrt : Q → Q) : Node → Prop
  | .fragment _ _ => True
  | .cacs o e opts => fuseStep cbrt [] o = .ok o ∧ fuseStep cbrt [] e = .ok e ∧
      CACS_mk cbrt o e (some opts) = .ok (.cacs o e opts)
  | _ => False

/-- Adjacent output nodes the fuser would not merge: consecutive fragments
must differ in weight. -/
def NoMergePair : Node → Node → Prop
  | .fragment _ w1, .fragment _ w2 => w1 ≠ w2
  | _, _ => True

/-- Output invariant of `fuse_fragments`. -/
def FusedL (cbrt : Q → Q) (l : List Node) : Prop :=
  (∀ n ∈ l, FusedNode cbrt n) ∧ List.Chain' NoMergePair l

theorem noMergePair_right_cacs (x : Node) (o e : List Node) (opts : Options) :
    NoMergePair x (.cacs o e opts) := by
  cases x <;> simp [NoMergePair]

theorem noMergePair_frag_irrel (x : Node) (t t' : Str) (w : Q)
    (h : NoMergePair x (.fragment t w)) : NoMergePair x (.fragment t' w) := by
  cases x <;> simp [NoMergePair] at h ⊢ <;> exact h

/-- A `FusedL` list is a fixed point of the fuser, stated with the
accumulator explicit. -/
theorem fuseStep_fixpoint (cbrt : Q → Q) :
    ∀ (items result : List Node),
      (∀ n ∈ result ++ items, FusedNode cbrt n) →
      List.Chain' NoMergePair (result ++ items) →
      fuseStep cbrt result items = .ok (result ++ items) := by
  intro items
  induction items with
  | nil => intro result _ _; simp [fuseStep]
  | cons x rest ih =>
      intro result hmem hch
      have hassoc : ∀ (y : Node), (result ++ [y]) ++ rest = result ++ y :: rest := by
        intro y; simp
      have hheadmem : x ∈ result ++ x :: rest :=
        List.mem_append_right _ (List.Mem.head _)
      match x with
      | .fragment t w =>
          simp only [fuseStep]
          have happly : fuseStep cbrt (result ++ [.fragment t w]) rest =
              .ok (result ++ .fragment t w :: rest) := by
            have h2 := ih (result ++ [.fragment t w])
              (by rw [hassoc]; exact hmem) (by rw [hassoc]; exact hch)
            rw [hassoc] at h2
            exact h2
          cases hl : result.getLast? with
          | none => exact happly
          | some last =>
              have hlast := getLast?_decomp result last hl
              have hmemlast : last ∈ result := by
                rw [hlast]
                exact List.mem_append_right _ (List.Mem.head _)
              have hbd := (List.chain'_append.mp hch).2.2 last
                (Option.mem_def.mpr hl) (.fragment t w) rfl
              cases last with
              | fragment lt lw =>
                  have hlw : lw ≠ w := by simpa [NoMergePair] using hbd
                  simp only [List.cons.injEq]
                  rw [if_neg hlw]
                  exact happly
              | cacs a b c => exact happly
              | str u =>
                  exact absurd (hmem _ (List.mem_append_left _ hmemlast))
                    (by simp [FusedNode])
              | num q =>
                  exact absurd (hmem _ (List.mem_append_left _ hmemlast))
                    (by simp [FusedNode])
              | attention a b =>
                  exact absurd (hmem _ (List.mem_append_left _ hmemlast))
                    (by simp [FusedNode])
              | blend a b c =>
                  exact absurd (hmem _ (List.mem_append_left _ hmemlast))
                    (by simp [FusedNode])
              | prompt a =>
                  exact absurd (hmem _ (List.mem_append_left _ hmemlast))
                    (by simp [FusedNode])
              | flattened a =>
                  exact absurd (hmem _ (List.mem_append_left _ hmemlast))
                    (by simp [FusedNode])
              | conjunction a b =>
                  exact absurd (hmem _ (List.mem_append_left _ hmemlast))
                    (by simp [FusedNode])
              | group a =>
                  exact absurd (hmem _ (List.mem_append_left _ hmemlast))
                    (by simp [FusedNode])
      | .cacs o e opts =>
          have hx : FusedNode cbrt (.cacs o e opts) := hmem _ hheadmem
          simp only [FusedNode] at hx
          obtain ⟨ho, he, hc⟩ := hx
          simp only [fuseStep]
          rw [ho, perrBindOk, he, perrBindOk, hc, perrBindOk]
          have h2 := ih (result ++ [.cacs o e opts])
            (by rw [hassoc]; exact hmem) (by rw [hassoc]; exact hch)
          rw [hassoc] at h2
          exact h2
      | .str u => exact absurd (hmem _ hheadmem) (by simp [FusedNode])
      | .num q => exact absurd (hmem _ hheadmem) (by simp [FusedNode])
      | .attention a b => exact absurd (hmem _ hheadmem) (by simp [FusedNode])
      | .blend a b c => exact absurd (hmem _ hheadmem) (by simp [FusedNode])
      | .prompt a => exact absurd (hmem _ hheadmem) (by simp [FusedNode])
      | .flattened a => exact absurd (hmem _ hheadmem) (by simp [FusedNode])
      | .conjunction a b => exact absurd (hmem _ hheadmem) (by simp [FusedNode])
      | .group a => exact absurd (hmem _ hheadmem) (by simp [FusedNode])

/-- Everything `fuseStep` can return satisfies the `FusedL` invariant,
provided the accumulator already does. -/
theorem fuseStep_preserves (cbrt : Q → Q) :
    ∀ (N : ℕ) (items : List Node), sizeOf items ≤ N →
      ∀ (result r : List Node), FusedL cbrt result →
        fuseStep cbrt result items = .ok r → FusedL cbrt r := by
  intro N
  induction N with
  | zero =>
      intro items hsz
      cases items <;> simp at hsz
  | succ N ih =>
      intro items hsz result r hres hstep
      match items with
      | [] =>
          simp [fuseStep] at hstep
          rw [← hstep]
          exact hres
      | .cacs o e opts :: rest =>
          simp only [fuseStep] at hstep
          have hszo : sizeOf o ≤ N := by simp at hsz; omega
          have hsze : sizeOf e ≤ N := by simp at hsz; omega
          have hszr : sizeOf rest ≤ N := by simp at hsz; omega
          cases ho : fuseStep cbrt [] o with
          | error er =>
              rw [ho, perrBindErr] at hstep
              exact absurd hstep (by simp)
          | ok origFused =>
              rw [ho, perrBindOk] at hstep
              have hFo : FusedL cbrt origFused :=
                ih o hszo [] origFused ⟨by simp, by simp⟩ ho
              cases he : fuseStep cbrt [] e with
              | error er =>
                  rw [he, perrBindErr] at hstep
                  exact absurd hstep (by simp)
              | ok editedFused =>
                  rw [he, perrBindOk] at hstep
                  have hFe : FusedL cbrt editedFused :=
                    ih e hsze [] editedFused ⟨by simp, by simp⟩ he
                  cases hc : CACS_mk cbrt origFused editedFused (some opts) with
                  | error er =>
                      rw [hc, perrBindErr] at hstep
                      exact absurd hstep (by simp)
                  | ok n =>
                      rw [hc, perrBindOk] at hstep
                      obtain ⟨mo, hn, hcanon⟩ :=
                        CACS_mk_ok_shape cbrt origFused editedFused opts n hc
                      have hofix : fuseStep cbrt [] origFused = .ok origFused := by
                        have := fuseStep_fixpoint cbrt origFused []
                          (by simpa using hFo.1) (by simpa using hFo.2)
                        simpa using this
                      have hedprops :
                          (if editedFused.isEmpty then [Fragment_mk (cs "") 1]
                            else editedFused) ≠ [] ∧
                          fuseStep cbrt []
                            (if editedFused.isEmpty then [Fragment_mk (cs "") 1]
                              else editedFused) =
                            .ok (if editedFused.isEmpty
                              then [Fragment_mk (cs "") 1] else editedFused) := by
                        by_cases hemp : editedFused.isEmpty
                        · rw [if_pos hemp]
                          refine ⟨by simp, ?_⟩
                          have := fuseStep_fixpoint cbrt [Fragment_mk (cs "") 1] []
                            (by
                              intro m hm
                              simp at hm
                              rw [hm]
                              simp [Fragment_mk, FusedNode])
                            (by simp)
                          simpa using this
                        · rw [if_neg hemp]
                          refine ⟨?_, ?_⟩
                          · cases heq : editedFused
                            · rw [heq] at hemp; exact absurd rfl hemp
                            · simp
                          · have := fuseStep_fixpoint cbrt editedFused []
                              (by simpa using hFe.1) (by simpa using hFe.2)
                            simpa using this
                      have hFn : FusedNode cbrt n := by
                        rw [hn]
                        simp only [FusedNode]
                        exact ⟨hofix, hedprops.2,
                          CACS_mk_rebuild cbrt origFused _ mo hedprops.1 hcanon⟩
                      refine ih rest hszr (result ++ [n]) r ⟨?_, ?_⟩ hstep
                      · intro m hm
                        rcases List.mem_append.mp hm with h1 | h1
                        · exact hres.1 m h1
                        · rw [List.mem_singleton.mp h1]
                          exact hFn
                      · refine List.chain'_append.mpr
                          ⟨hres.2, List.chain'_singleton n, ?_⟩
                        intro p hp y hy
                        simp at hy
                        subst hy
                        rw [hn]
                        exact noMergePair_right_cacs p _ _ _
      | .fragment t w :: rest =>
          simp only [fuseStep] at hstep
          have hszr : sizeOf rest ≤ N := by simp at hsz; omega
          cases hl : result.getLast? with
          | none =>
              rw [hl] at hstep
              refine ih rest hszr (result ++ [.fragment t w]) r ⟨?_, ?_⟩ hstep
              · intro m hm
                rcases List.mem_append.mp hm with h1 | h1
                · exact hres.1 m h1
                · rw [List.mem_singleton.mp h1]
                  simp [FusedNode]
              · refine List.chain'_append.mpr
                  ⟨hres.2, List.chain'_singleton _, ?_⟩
                intro p hp y hy
                rw [Option.mem_def, hl] at hp
                exact absurd hp (by simp)
          | some last =>
              rw [hl] at hstep
              have hlast := getLast?_decomp result last hl
              cases last with
              | fragment lt lw =>
                  simp only [List.cons.injEq] at hstep
                  by_cases hw : lw = w
                  · rw [if_pos hw] at hstep
                    refine ih rest hszr
                      (result.dropLast ++ [Fragment_mk (lt ++ ' ' :: t) lw]) r
                      ⟨?_, ?_⟩ hstep
                    · intro m hm
                      rcases List.mem_append.mp hm with h1 | h1
                      · exact hres.1 m (by rw [hlast]; exact List.mem_append_left _ h1)
                      · rw [List.mem_singleton.mp h1]
                        simp [Fragment_mk, FusedNode]
                    · have hch2 : List.Chain' NoMergePair
                          (result.dropLast ++ [Node.fragment lt lw]) := by
                        rw [← hlast]; exact hres.2
                      obtain ⟨c1, _, bd⟩ := List.chain'_append.mp hch2
                      refine List.chain'_append.mpr
                        ⟨c1, List.chain'_singleton _, ?_⟩
                      intro p hp y hy
                      simp at hy
                      subst hy
                      have hb := bd p hp (.fragment lt lw) rfl
                      exact noMergePair_frag_irrel p lt _ lw hb
                  · rw [if_neg hw] at hstep
                    refine ih rest hszr (result ++ [.fragment t w]) r ⟨?_, ?_⟩ hstep
                    · intro m hm
                      rcases List.mem_append.mp hm with h1 | h1
                      · exact hres.1 m h1
                      · rw [List.mem_singleton.mp h1]
                        simp [FusedNode]
                    · refine List.chain'_append.mpr
                        ⟨hres.2, List.chain'_singleton _, ?_⟩
                      intro p hp y hy
                      simp at hy
                      subst hy
                      rw [Option.mem_def, hl] at hp
                      simp at hp
                      subst hp
                      simp [NoMergePair]
                      exact hw
              | cacs a b c =>
                  refine ih rest hszr (result ++ [.fragment t w]) r ⟨?_, ?_⟩ hstep
                  · intro m hm
                    rcases List.mem_append.mp hm with h1 | h1
                    · exact hres.1 m h1
                    · rw [List.mem_singleton.mp h1]
                      simp [FusedNode]
                  · refine List.chain'_append.mpr
                      ⟨hres.2, List.chain'_singleton _, ?_⟩
                    intro p hp y hy
                    simp at hy
                    subst hy
                    rw [Option.mem_def, hl] at hp
                    simp at hp
                    subst hp
                    simp [NoMergePair]
              | str u => simp at hstep
              | num q => simp at hstep
              | attention a b => simp at hstep
              | blend a b c => simp at hstep
              | prompt a => simp at hstep
              | flattened a => simp at hstep
              | conjunction a b => simp at hstep
              | group a => simp at hstep
      | .str u :: rest => simp [fuseStep] at hstep
      | .num q :: rest => simp [fuseStep] at hstep
      | .attention a b :: rest => simp [fuseStep] at hstep
      | .blend a b c :: rest => simp [fuseStep] at hstep
      | .prompt a :: rest => simp [fuseStep] at hstep
      | .flattened a :: rest => simp [fuseStep] at hstep
      | .conjunction a b :: rest => simp [fuseStep] at hstep
      | .group a :: rest => simp [fuseStep] at hstep

/-- C9: `fuse_fragments` is idempotent — whenever a fuse succeeds (as it
does on every sequence of fragments and substitutes), fusing the result
again returns it unchanged: the output has no two adjacent equal-weight
fragments left to merge, and each substitute's fused sides and merged
options are fixed points of the respective constructors. -/
theorem c9_fuse_fragments_idempotent (cbrt : Q → Q) (xs r : List Node)
    (h : fuse_fragments cbrt xs = .ok r) : fuse_fragments cbrt r = .ok r := by
  have hF : FusedL cbrt r :=
    fuseStep_preserves cbrt (sizeOf xs) xs le_rfl [] r ⟨by simp, by simp⟩ h
  have hfix := fuseStep_fixpoint cbrt r [] (by simpa using hF.1)
    (by simpa using hF.2)
  simpa [fuse_fragments] using hfix

/-- C9 witness: a three-node sequence — two equal-weight fragments and a
substitute with an extra option — fuses once (merging the fragments,
normalizing the substitute) and the theorem returns the fused list
unchanged on the second pass. -/
theorem c9_fuse_fragments_idempotent_witness :
    fuse_fragments (fun q => q)
        [Node.fragment (cs "a") ⟨1, 1⟩, Node.fragment (cs "b") ⟨1, 1⟩,
         Node.cacs [Node.fragment (cs "c") ⟨1, 1⟩] []
           [(cs "x", OVal.str (cs "y"))]] =
      .ok [Node.fragment (cs "a b") ⟨1, 1⟩,
        Node.cacs [Node.fragment (cs "c") ⟨1, 1⟩]
          [Node.fragment [] ⟨1, 1⟩]
          [(cs "s_start", OVal.num ⟨0, 1⟩),
           (cs "s_end", OVal.num ⟨1031497370079501, 5000000000000000⟩),
           (cs "t_start", OVal.num ⟨0, 1⟩),
           (cs "t_end", OVal.num ⟨1, 1⟩),
           (cs "x", OVal.str (cs "y"))]] ∧
    fuse_fragments (fun q => q)
        [Node.fragment (cs "a b") ⟨1, 1⟩,
         Node.cacs [Node.fragment (cs "c") ⟨1, 1⟩]
           [Node.fragment [] ⟨1, 1⟩]
           [(cs "s_start", OVal.num ⟨0, 1⟩),
            (cs "s_end", OVal.num ⟨1031497370079501, 5000000000000000⟩),
            (cs "t_start", OVal.num ⟨0, 1⟩),
            (cs "t_end", OVal.num ⟨1, 1⟩),
            (cs "x", OVal.str (cs "y"))]] =
      .ok [Node.fragment (cs "a b") ⟨1, 1⟩,
        Node.cacs [Node.fragment (cs "c") ⟨1, 1⟩]
          [Node.fragment [] ⟨1, 1⟩]
          [(cs "s_start", OVal.num ⟨0, 1⟩),
           (cs "s_end", OVal.num ⟨1031497370079501, 5000000000000000⟩),
           (cs "t_start", OVal.num ⟨0, 1⟩),
           (cs "t_end", OVal.num ⟨1, 1⟩),
           (cs "x", OVal.str (cs "y"))]] := by
  have h1 : fuse_fragments (fun q => q)
      [Node.fragment (cs "a") ⟨1, 1⟩, Node.fragment (cs "b") ⟨1, 1⟩,
       Node.cacs [Node.fragment (cs "c") ⟨1, 1⟩] []
         [(cs "x", OVal.str (cs "y"))]] =
      .ok [Node.fragment (cs "a b") ⟨1, 1⟩,
        Node.cacs [Node.fragment (cs "c") ⟨1, 1⟩]
          [Node.fragment [] ⟨1, 1⟩]
          [(cs "s_start", OVal.num ⟨0, 1⟩),
           (cs "s_end", OVal.num ⟨1031497370079501, 5000000000000000⟩),
           (cs "t_start", OVal.num ⟨0, 1⟩),
           (cs "t_end", OVal.num ⟨1, 1⟩),
           (cs "x", OVal.str (cs "y"))]] :=
    fuseStepF_sound (fun q => q) 50 [] _ _ rfl
  exact ⟨h1, c9_fuse_fragments_idempotent (fun q => q) _ _ h1⟩

/-- A character that can sit inside a word for the C4 class: not one of the
eight syntactic characters, not Python whitespace, and not one of the extra
characters `pp.White` skips. -/
def wordChar (c : Char) : Bool :=
  ¬(c ∈ syntacticChars ∨ pyIsSpace c ∨ c ∈ whiteExtra)

/-- The C4 input class: plain spaces and word characters. -/
def goodChar (c : Char) : Bool := c = ' ' ∨ wordChar c

/-- The whitespace-separated words of a string. -/
def wordsOf : Str → List Str
  | [] => []
  | c :: r =>
    if wordChar c then (c :: r.takeWhile wordChar) :: wordsOf (r.dropWhile wordChar)
    else wordsOf r
termination_by s => s.length
decreasing_by
  · simp only [List.length_cons]
    exact Nat.lt_succ_of_le (dropWhile_length_le _ _)
  · simp only [List.length_cons]
    exact Nat.lt_succ_self _

/-- Words joined by single spaces (Python `' '.join`). -/
def joinWords : List Str → Str
  | [] => []
  | [w] => w
  | w :: w2 :: rest => w ++ ' ' :: joinWords (w2 :: rest)

theorem wordChar_not_space {c : Char} (h : wordChar c = true) :
    pyIsSpace c = false := by
  simp [wordChar] at h
  simp [h.2.1]

theorem wordChar_not_syn {c : Char} (h : wordChar c = true) :
    c ∉ syntacticChars := by
  simp [wordChar] at h
  exact h.1

theorem wordChar_not_extra {c : Char} (h : wordChar c = true) :
    c ∉ whiteExtra := by
  simp [wordChar] at h
  exact h.2.2

theorem mem_pyWhitespace_isSpace {c : Char} (h : c ∈ pyWhitespace) :
    pyIsSpace c = true := by
  simp [pyWhitespace] at h
  rcases h with rfl | rfl | rfl | rfl | rfl | rfl <;> decide

theorem mem_whiteMatch_isSpace {c : Char} (h : c ∈ whiteMatch) :
    pyIsSpace c = true := by
  simp [whiteMatch] at h
  rcases h with rfl | rfl | rfl | rfl <;> decide

theorem mem_ppDefaultWhite_isSpace {c : Char} (h : c ∈ ppDefaultWhite) :
    pyIsSpace c = true := by
  simp [ppDefaultWhite] at h
  rcases h with rfl | rfl | rfl | rfl <;> decide

theorem wordChar_not_pyWhitespace {c : Char} (h : wordChar c = true) :
    c ∉ pyWhitespace := fun hm =>
  absurd (mem_pyWhitespace_isSpace hm) (by simp [wordChar_not_space h])

theorem wordChar_not_whiteMatch {c : Char} (h : wordChar c = true) :
    c ∉ whiteMatch := fun hm =>
  absurd (mem_whiteMatch_isSpace hm) (by simp [wordChar_not_space h])

theorem wordChar_not_ppDefaultWhite {c : Char} (h : wordChar c = true) :
    c ∉ ppDefaultWhite := fun hm =>
  absurd (mem_ppDefaultWhite_isSpace hm) (by simp [wordChar_not_space h])

theorem expandtabsAux_id (s : Str) (h : ∀ c ∈ s, c ≠ '\t') :
    ∀ col, expandtabsAux col s = s := by
  induction s with
  | nil => intro col; rfl
  | cons c rest ih =>
      intro col
      simp only [expandtabsAux]
      rw [if_neg (h c (List.Mem.head _))]
      have ihr := ih (fun c' h' => h c' (List.Mem.tail _ h'))
      by_cases hc : c = '\n' ∨ c = '\r'
      · rw [if_pos hc, ihr 0]
      · rw [if_neg hc, ihr (col + 1)]

theorem expandtabs_id (s : Str) (h : ∀ c ∈ s, c ≠ '\t') : expandtabs s = s :=
  expandtabsAux_id s h 0

theorem hasSub2_false_of_not_mem (a b : Char) :
    ∀ (s : Str), b ∉ s → hasSub2 a b s = false := by
  intro s
  induction s with
  | nil => intro _; rfl
  | cons c rest ih =>
      intro hb
      cases rest with
      | nil => rfl
      | cons c2 r2 =>
          simp only [hasSub2]
          have h2 : c2 ≠ b := fun h =>
            hb (h ▸ List.Mem.tail _ (List.Mem.head _))
          have := ih (fun h => hb (List.Mem.tail _ h))
          simp [this]
          intro _
          exact h2

theorem fragText_id (s : Str) (h1 : '(' ∉ s) (h2 : ')' ∉ s) (h3 : '"' ∉ s) :
    fragText s = s := by
  unfold fragText
  rw [hasSub2_false_of_not_mem '\\' '"' s h3,
    hasSub2_false_of_not_mem '\\' '(' s h1,
    hasSub2_false_of_not_mem '\\' ')' s h2]
  simp

theorem wordChar_ne {c x : Char} (h : wordChar c = true) (hx : x ∈ syntacticChars) :
    c ≠ x := fun hc => wordChar_not_syn h (hc ▸ hx)

theorem word_fragText_id (u : Str) (h : ∀ c ∈ u, wordChar c = true) :
    fragText u = u :=
  fragText_id u
    (fun hm => wordChar_not_syn (h _ hm) (by decide))
    (fun hm => wordChar_not_syn (h _ hm) (by decide))
    (fun hm => wordChar_not_syn (h _ hm) (by decide))

theorem takeWhile_congr {p q : Char → Bool} :
    ∀ (s : Str), (∀ c ∈ s, p c = q c) → s.takeWhile p = s.takeWhile q := by
  intro s
  induction s with
  | nil => intro _; rfl
  | cons c rest ih =>
      intro h
      simp only [List.takeWhile_cons]
      rw [h c (List.Mem.head _), ih (fun c' h' => h c' (List.Mem.tail _ h'))]

theorem dropWhile_congr {p q : Char → Bool} :
    ∀ (s : Str), (∀ c ∈ s, p c = q c) → s.dropWhile p = s.dropWhile q := by
  intro s
  induction s with
  | nil => intro _; rfl
  | cons c rest ih =>
      intro h
      simp only [List.dropWhile_cons]
      rw [h c (List.Mem.head _), ih (fun c' h' => h c' (List.Mem.tail _ h'))]

theorem drop_takeWhile_length {p : Char → Bool} :
    ∀ (s : Str), s.drop (s.takeWhile p).length = s.dropWhile p := by
  intro s
  induction s with
  | nil => rfl
  | cons c rest ih =>
      simp only [List.takeWhile_cons, List.dropWhile_cons]
      by_cases h : p c
      · simp [h, ih]
      · simp [h]

theorem good_tail (s : Str) (h : ∀ c ∈ s, goodChar c = true) :
    ∀ (c0 : Char) (r : Str), s = c0 :: r → ∀ c ∈ r, goodChar c = true := by
  intro c0 r hs c hc
  exact h c (hs ▸ List.Mem.tail _ hc)

theorem good_dropWhile (p : Char → Bool) (s : Str)
    (h : ∀ c ∈ s, goodChar c = true) :
    ∀ c ∈ s.dropWhile p, goodChar c = true := fun c hc =>
  h c ((List.dropWhile_sublist p).subset hc)

theorem good_takeWhile (p : Char → Bool) (s : Str)
    (h : ∀ c ∈ s, goodChar c = true) :
    ∀ c ∈ s.takeWhile p, goodChar c = true := fun c hc =>
  h c ((List.takeWhile_sublist p).subset hc)

/-- All characters of `s` lie in the C4 class. -/
def GoodStr (s : Str) : Prop := ∀ c ∈ s, goodChar c = true

/-- `s` does not start inside a word (it is empty or starts with a space). -/
def NotWordStart (s : Str) : Prop := s = [] ∨ s.head? = some ' '

theorem good_not_syn {c : Char} (hg : goodChar c = true)
    (hb : c ∈ syntacticChars) : False := by
  simp [goodChar] at hg
  rcases hg with h | h
  · rw [h] at hb; exact absurd hb (by decide)
  · exact wordChar_not_syn h hb

theorem c4_prefix2_false (a b : Char) (inp : Str) (hg : GoodStr inp)
    (hb : b ∈ syntacticChars) : List.isPrefixOf [a, b] inp = false := by
  match inp with
  | [] => rfl
  | [c] => simp [List.isPrefixOf]
  | c :: d :: r =>
      have hd : d ≠ b := fun h =>
        good_not_syn (hg d (List.Mem.tail _ (List.Mem.head _))) (h ▸ hb)
      simp [List.isPrefixOf, hd]
      intro _
      exact fun h => hd h.symm

theorem c4_prefix_head_false (x c : Char) (t r : Str) (hne : c ≠ x) :
    List.isPrefixOf (x :: t) (c :: r) = false := by
  have hbe : (x == c) = false := beq_eq_false_iff_ne.mpr (fun h => hne h.symm)
  simp [List.isPrefixOf, hbe]

theorem dropWhile_append_all {p : Char → Bool} :
    ∀ (l1 l2 : Str), (∀ c ∈ l1, p c = true) →
      (l1 ++ l2).dropWhile p = l2.dropWhile p := by
  intro l1
  induction l1 with
  | nil => intro l2 _; rfl
  | cons c r ih =>
      intro l2 h
      simp only [List.cons_append, List.dropWhile_cons,
        h c (List.Mem.head _), if_true]
      exact ih l2 (fun c' h' => h c' (List.Mem.tail _ h'))

theorem dropWhile_head_false {p : Char → Bool} {c : Char} (r : Str)
    (h : p c = false) : (c :: r).dropWhile p = c :: r := by
  simp [List.dropWhile_cons, h]

theorem takeWhile_append_word (p : Char → Bool) :
    ∀ (u rest : Str), (∀ c ∈ u, p c = true) →
      (∀ c r', rest = c :: r' → p c = false) →
      (u ++ rest).takeWhile p = u ∧ (u ++ rest).dropWhile p = rest := by
  intro u
  induction u with
  | nil =>
      intro rest _ hr
      cases rest with
      | nil => exact ⟨rfl, rfl⟩
      | cons c r' =>
          constructor
          · simp [List.takeWhile_cons, hr c r' rfl]
          · simp [List.dropWhile_cons, hr c r' rfl]
  | cons c u' ih =>
      intro rest h hr
      have ⟨h1, h2⟩ := ih rest (fun c' h' => h c' (List.Mem.tail _ h')) hr
      constructor
      · simp [List.takeWhile_cons, h c (List.Mem.head _), h1]
      · simp [List.dropWhile_cons, h c (List.Mem.head _), h2]

theorem joinStrs_map_singles :
    ∀ (u : Str), joinStrs (u.map (fun c => Node.str [c])) = some u := by
  intro u
  induction u with
  | nil => rfl
  | cons c r ih => simp [joinStrs, ih]

theorem dropWhile_cons_head {p : Char → Bool} :
    ∀ (s : Str) (c : Char) (r : Str), s.dropWhile p = c :: r → p c = false := by
  intro s
  induction s with
  | nil => intro c r h; simp [List.dropWhile] at h
  | cons x xs ih =>
      intro c r h
      rw [List.dropWhile_cons] at h
      by_cases hx : p x
      · rw [if_pos hx] at h; exact ih c r h
      · rw [if_neg hx] at h
        cases h
        simpa using hx

theorem good_space_head {c : Char} (hg : goodChar c = true)
    (hw : wordChar c = false) : c = ' ' := by
  simp [goodChar] at hg
  rcases hg with h | h
  · exact h
  · rw [h] at hw; exact absurd hw (by simp)

theorem c4_lit_fail (P : PParams) (t : Str) (sw : Bool) (inp : Str)
    (hpre : t.isPrefixOf (skipIf sw inp) = false) :
    ∀ f, 1 ≤ f → runE P f (.lit t) sw inp = .fail := by
  intro f hf
  obtain ⟨g, rfl⟩ : ∃ g, f = g + 1 := ⟨f - 1, by omega⟩
  simp only [runE]
  rw [hpre]
  simp

theorem runLongest_all_fail (P : PParams) :
    ∀ (es : List PExpr) (f : ℕ) (sw : Bool) (s : Str),
      (∀ e ∈ es, ∀ f', 1 ≤ f' → runE P f' e sw s = .fail) →
      es.length + 1 ≤ f → runLongest P f es sw s = .fail := by
  intro es
  induction es with
  | nil =>
      intro f sw s _ hf
      obtain ⟨g, rfl⟩ : ∃ g, f = g + 1 := ⟨f - 1, by omega⟩
      rfl
  | cons e rest ih =>
      intro f sw s h hf
      obtain ⟨g, rfl⟩ : ∃ g, f = g + 1 := ⟨f - 1, by omega⟩
      simp only [runLongest]
      rw [h e (List.Mem.head _) g (by simp at hf; omega)]
      exact ih g sw s (fun e' he' => h e' (List.Mem.tail _ he'))
        (by simp at hf; omega)

theorem c4_lits8_fail (P : PParams) (inp : Str) (hg : GoodStr inp) :
    ∀ f, 12 ≤ f →
      runE P f (.orLongest [.lit (cs "\\("), .lit (cs "\\)"), .lit (cs "\\\""),
        .lit (cs "\\,"), .lit (cs "\\."), .lit (cs "\\+"), .lit (cs "\\-"),
        .lit (cs "\\=")]) false inp = .fail := by
  intro f hf
  obtain ⟨g, rfl⟩ : ∃ g, f = g + 1 := ⟨f - 1, by omega⟩
  simp only [runE]
  apply runLongest_all_fail
  · intro e he f' hf'
    simp only [List.mem_cons, List.not_mem_nil, or_false] at he
    rcases he with rfl | rfl | rfl | rfl | rfl | rfl | rfl | rfl <;>
      exact c4_lit_fail P _ false inp
        (c4_prefix2_false '\\' _ inp hg (by decide)) f' hf'
  · simp
    omega

theorem c4_charIn_fail (P : PParams) (inp : Str) (hg : GoodStr inp) :
    ∀ f, 1 ≤ f → runE P f (.charIn (cs "-+")) false inp = .fail := by
  intro f hf
  obtain ⟨g, rfl⟩ : ∃ g, f = g + 1 := ⟨f - 1, by omega⟩
  simp only [runE, skipIf, if_false]
  cases inp with
  | nil => rfl
  | cons c r =>
      have hc : c ∉ cs "-+" := by
        intro hmem
        apply good_not_syn (hg c (List.Mem.head _))
        have h2 : c ∈ ['-', '+'] := hmem
        simp at h2
        rcases h2 with rfl | rfl <;> decide
      simp [hc]

theorem c4_cni1_ok (P : PParams) (c : Char) (r : Str) (hc : wordChar c = true) :
    ∀ f, 1 ≤ f →
      runE P f (.charsNotIn1 (pyWhitespace ++ syntacticChars)) false (c :: r) =
        .ok r [.str [c]] := by
  intro f hf
  obtain ⟨g, rfl⟩ : ∃ g, f = g + 1 := ⟨f - 1, by omega⟩
  simp only [runE]
  have hmem : c ∉ pyWhitespace ++ syntacticChars := by
    intro hm
    rcases List.mem_append.mp hm with h | h
    · exact wordChar_not_pyWhitespace hc h
    · exact wordChar_not_syn hc h
  simp [hmem]

theorem c4_cni1_fail (P : PParams) (inp : Str) (hsp : NotWordStart inp) :
    ∀ f, 1 ≤ f →
      runE P f (.charsNotIn1 (pyWhitespace ++ syntacticChars)) false inp =
        .fail := by
  intro f hf
  obtain ⟨g, rfl⟩ : ∃ g, f = g + 1 := ⟨f - 1, by omega⟩
  simp only [runE]
  rcases hsp with rfl | hhd
  · rfl
  · cases inp with
    | nil => rfl
    | cons c r =>
        simp at hhd
        subst hhd
        simp [show (' ' : Char) ∈ pyWhitespace ++ syntacticChars from by decide]

theorem good_append_word {u rest : Str} (huw : ∀ c ∈ u, wordChar c = true)
    (hrest : GoodStr rest) : GoodStr (u ++ rest) := by
  intro c hc
  rcases List.mem_append.mp hc with h | h
  · simp [goodChar, huw c h]
  · exact hrest c h

theorem c4_pmseq_fail (P : PParams) (inp : Str) (hg : GoodStr inp) :
    ∀ f, 3 ≤ f →
      runE P f (.seq [.charIn (cs "-+"),
        .notAny (.first [.white, .charIn syntacticChars, .strEnd])]) false inp =
        .fail := by
  intro f hf
  obtain ⟨g, rfl⟩ : ∃ g, f = g + 1 := ⟨f - 1, by omega⟩
  simp only [runE]
  obtain ⟨g1, rfl⟩ : ∃ g1, g = g1 + 1 := ⟨g - 1, by omega⟩
  simp only [runSeq]
  rw [c4_charIn_fail P inp hg g1 (by omega)]

theorem c4_rwinner_ok (P : PParams) (c : Char) (r : Str)
    (hg : GoodStr (c :: r)) (hc : wordChar c = true) :
    ∀ f, 16 ≤ f →
      runE P f (.first
        [.orLongest [.lit (cs "\\("), .lit (cs "\\)"), .lit (cs "\\\""),
          .lit (cs "\\,"), .lit (cs "\\."), .lit (cs "\\+"), .lit (cs "\\-"),
          .lit (cs "\\=")],
         .seq [.charIn (cs "-+"),
           .notAny (.first [.white, .charIn syntacticChars, .strEnd])],
         .charsNotIn1 (pyWhitespace ++ syntacticChars)]) false (c :: r) =
        .ok r [.str [c]] := by
  intro f hf
  obtain ⟨g, rfl⟩ : ∃ g, f = g + 1 := ⟨f - 1, by omega⟩
  simp only [runE]
  obtain ⟨g1, rfl⟩ : ∃ g1, g = g1 + 1 := ⟨g - 1, by omega⟩
  simp only [runAlts]
  rw [c4_lits8_fail P (c :: r) hg g1 (by omega)]
  obtain ⟨g2, rfl⟩ : ∃ g2, g1 = g2 + 1 := ⟨g1 - 1, by omega⟩
  simp only [runAlts]
  rw [c4_pmseq_fail P (c :: r) hg g2 (by omega)]
  obtain ⟨g3, rfl⟩ : ∃ g3, g2 = g3 + 1 := ⟨g2 - 1, by omega⟩
  simp only [runAlts]
  rw [c4_cni1_ok P c r hc g3 (by omega)]

theorem c4_rwinner_fail (P : PParams) (inp : Str)
    (hg : GoodStr inp) (hnw : NotWordStart inp) :
    ∀ f, 16 ≤ f →
      runE P f (.first
        [.orLongest [.lit (cs "\\("), .lit (cs "\\)"), .lit (cs "\\\""),
          .lit (cs "\\,"), .lit (cs "\\."), .lit (cs "\\+"), .lit (cs "\\-"),
          .lit (cs "\\=")],
         .seq [.charIn (cs "-+"),
           .notAny (.first [.white, .charIn syntacticChars, .strEnd])],
         .charsNotIn1 (pyWhitespace ++ syntacticChars)]) false inp = .fail := by
  intro f hf
  obtain ⟨g, rfl⟩ : ∃ g, f = g + 1 := ⟨f - 1, by omega⟩
  simp only [runE]
  obtain ⟨g1, rfl⟩ : ∃ g1, g = g1 + 1 := ⟨g - 1, by omega⟩
  simp only [runAlts]
  rw [c4_lits8_fail P inp hg g1 (by omega)]
  obtain ⟨g2, rfl⟩ : ∃ g2, g1 = g2 + 1 := ⟨g1 - 1, by omega⟩
  simp only [runAlts]
  rw [c4_pmseq_fail P inp hg g2 (by omega)]
  obtain ⟨g3, rfl⟩ : ∃ g3, g2 = g3 + 1 := ⟨g2 - 1, by omega⟩
  simp only [runAlts]
  rw [c4_cni1_fail P inp hnw g3 (by omega)]
  obtain ⟨g4, rfl⟩ : ∃ g4, g3 = g4 + 1 := ⟨g3 - 1, by omega⟩
  rfl

/-- Abbreviation for the repeated inner element of `restricted_word`
(purely to keep the C4 proofs readable; identical to the grammar's term). -/
def c4RWinner : PExpr :=
  .first
    [.orLongest [.lit (cs "\\("), .lit (cs "\\)"), .lit (cs "\\\""),
      .lit (cs "\\,"), .lit (cs "\\."), .lit (cs "\\+"), .lit (cs "\\-"),
      .lit (cs "\\=")],
     .seq [.charIn (cs "-+"),
       .notAny (.first [.white, .charIn syntacticChars, .strEnd])],
     .charsNotIn1 (pyWhitespace ++ syntacticChars)]

theorem c4_rwinner_ok' (P : PParams) (c : Char) (r : Str)
    (hg : GoodStr (c :: r)) (hc : wordChar c = true) :
    ∀ f, 16 ≤ f → runE P f c4RWinner false (c :: r) = .ok r [.str [c]] :=
  c4_rwinner_ok P c r hg hc

theorem c4_rwinner_fail' (P : PParams) (inp : Str)
    (hg : GoodStr inp) (hnw : NotWordStart inp) :
    ∀ f, 16 ≤ f → runE P f c4RWinner false inp = .fail :=
  c4_rwinner_fail P inp hg hnw

theorem c4_rwloop (P : PParams) :
    ∀ (u : Str) (rest : Str) (acc : List Node),
      (∀ c ∈ u, wordChar c = true) → GoodStr rest → NotWordStart rest →
      ∀ f, 17 * u.length + 17 ≤ f →
        runLoop P f c4RWinner false (u ++ rest) acc =
          .ok rest (acc ++ u.map (fun c => Node.str [c])) := by
  intro u
  induction u with
  | nil =>
      intro rest acc _ hrest hnw f hf
      obtain ⟨g, rfl⟩ : ∃ g, f = g + 1 := ⟨f - 1, by omega⟩
      simp only [runLoop, List.nil_append]
      rw [c4_rwinner_fail' P rest hrest hnw g (by omega)]
      simp
  | cons c u' ih =>
      intro rest acc hu hrest hnw f hf
      obtain ⟨g, rfl⟩ : ∃ g, f = g + 1 := ⟨f - 1, by omega⟩
      have hgood : GoodStr (c :: (u' ++ rest)) := by
        intro x hx
        rcases List.mem_cons.mp hx with h | h
        · rw [h]; simp [goodChar, hu c (List.Mem.head _)]
        · exact good_append_word (fun c' h' => hu c' (List.Mem.tail _ h'))
            hrest x h
      simp only [runLoop, List.cons_append]
      rw [c4_rwinner_ok' P c (u' ++ rest) hgood
        (hu c (List.Mem.head _)) g (by simp at hf ⊢; omega)]
      simp only [List.cons.injEq]
      rw [ih rest (acc ++ [Node.str [c]])
        (fun c' h' => hu c' (List.Mem.tail _ h')) hrest hnw g
        (by simp at hf ⊢; omega)]
      simp

theorem c4_restricted_word_ok (P : PParams) (sp u rest : Str)
    (hsp : ∀ c ∈ sp, c = ' ') (hu : u ≠ [])
    (huw : ∀ c ∈ u, wordChar c = true) (hrest : GoodStr rest)
    (hnw : NotWordStart rest) :
    ∀ f, 17 * u.length + 60 ≤ f →
      runE P f (.ref .restricted_word) true (sp ++ (u ++ rest)) =
        .ok rest [Fragment_mk u 1] := by
  intro f hf
  obtain ⟨g, rfl⟩ : ∃ g, f = g + 1 := ⟨f - 1, by omega⟩
  simp only [runE]
  rw [show grammarDef .restricted_word =
    .act .restrictedWordFrags (.combine (.oneOrMore c4RWinner)) from rfl]
  obtain ⟨g1, rfl⟩ : ∃ g1, g = g1 + 1 := ⟨g - 1, by omega⟩
  simp only [runE]
  obtain ⟨g2, rfl⟩ : ∃ g2, g1 = g2 + 1 := ⟨g1 - 1, by omega⟩
  simp only [runE]
  have hskip : skipIf true (sp ++ (u ++ rest)) = u ++ rest := by
    simp only [skipIf, if_true]
    rw [dropWhile_append_all sp (u ++ rest)
      (fun c hc => by rw [hsp c hc]; decide)]
    cases hu' : u with
    | nil => exact absurd hu' hu
    | cons c u'' =>
        simp only [List.cons_append]
        exact dropWhile_head_false _
          (by simp [wordChar_not_ppDefaultWhite (huw c (hu' ▸ List.Mem.head _))])
  rw [hskip]
  obtain ⟨g3, rfl⟩ : ∃ g3, g2 = g3 + 1 := ⟨g2 - 1, by omega⟩
  simp only [runE]
  cases hu' : u with
  | nil => exact absurd hu' hu
  | cons c u'' =>
      subst hu'
      have hgood : GoodStr (c :: (u'' ++ rest)) := by
        intro x hx
        rcases List.mem_cons.mp hx with h | h
        · rw [h]; simp [goodChar, huw c (List.Mem.head _)]
        · exact good_append_word (fun c' h' => huw c' (List.Mem.tail _ h'))
            hrest x h
      simp only [List.cons_append]
      rw [c4_rwinner_ok' P c (u'' ++ rest) hgood
        (huw c (List.Mem.head _)) g3 (by simp at hf ⊢; omega)]
      simp only [List.cons.injEq]
      rw [c4_rwloop P u'' rest [Node.str [c]]
        (fun c' h' => huw c' (List.Mem.tail _ h')) hrest hnw g3
        (by simp at hf ⊢; omega)]
      simp only [List.cons.injEq]
      rw [show ([Node.str [c]] ++ u''.map (fun c => Node.str [c])) =
        ((c :: u'').map (fun c => Node.str [c])) from by simp]
      rw [joinStrs_map_singles (c :: u'')]
      simp only [List.cons.injEq]
      simp only [applyAct]
      simp [List.mapM.loop]

theorem c4_restricted_word_fail (P : PParams) (sp : Str)
    (hsp : ∀ c ∈ sp, c = ' ') :
    ∀ f, 30 ≤ f →
      runE P f (.ref .restricted_word) true sp = .fail := by
  intro f hf
  obtain ⟨g, rfl⟩ : ∃ g, f = g + 1 := ⟨f - 1, by omega⟩
  simp only [runE]
  rw [show grammarDef .restricted_word =
    .act .restrictedWordFrags (.combine (.oneOrMore c4RWinner)) from rfl]
  obtain ⟨g1, rfl⟩ : ∃ g1, g = g1 + 1 := ⟨g - 1, by omega⟩
  simp only [runE]
  obtain ⟨g2, rfl⟩ : ∃ g2, g1 = g2 + 1 := ⟨g1 - 1, by omega⟩
  simp only [runE]
  have hskip : skipIf true sp = [] := by
    simp only [skipIf, if_true]
    exact List.dropWhile_eq_nil_iff.mpr
      (fun c hc => by rw [hsp c hc]; decide)
  rw [hskip]
  obtain ⟨g3, rfl⟩ : ∃ g3, g2 = g3 + 1 := ⟨g2 - 1, by omega⟩
  simp only [runE]
  rw [c4_rwinner_fail' P [] (by intro c hc; simp at hc) (Or.inl rfl) g3
    (by omega)]

theorem c4_skip_good (inp : Str) (hg : GoodStr inp) :
    skipIf true inp = inp.dropWhile (· = ' ') := by
  simp only [skipIf, if_true]
  apply dropWhile_congr
  intro c hc
  have hgc := hg c hc
  simp only [goodChar] at hgc
  rcases (by simpa using hgc : c = ' ' ∨ wordChar c = true) with h | h
  · rw [h]; decide
  · have h1 := wordChar_not_ppDefaultWhite h
    have h2 : c ≠ ' ' := fun he => by
      rw [he] at h; exact absurd h (by decide)
    simp [h1, h2]

theorem c4_tail_shape (inp : Str) (hg : GoodStr inp) :
    inp.dropWhile (· = ' ') = [] ∨
    ∃ c r, inp.dropWhile (· = ' ') = c :: r ∧ wordChar c = true ∧
      GoodStr (c :: r) := by
  cases h : inp.dropWhile (· = ' ') with
  | nil => exact Or.inl rfl
  | cons c r =>
      right
      have hsub : ∀ x ∈ c :: r, x ∈ inp := fun x hx =>
        (List.dropWhile_sublist _).subset (h ▸ hx)
      have hgc := hg c (hsub c (List.Mem.head _))
      have hcs : c ≠ ' ' := by
        have := dropWhile_cons_head inp c r h
        simpa using this
      have hw : wordChar c = true := by
        simp only [goodChar] at hgc
        rcases (by simpa using hgc : c = ' ' ∨ wordChar c = true) with h' | h'
        · exact absurd h' hcs
        · exact h'
      exact ⟨c, r, rfl, hw, fun x hx => hg x (hsub x hx)⟩

theorem c4_quoted_fail (P : PParams) (inp : Str) (hg : GoodStr inp) :
    ∀ f, 6 ≤ f → runE P f (.ref .quoted_fragment) true inp = .fail := by
  intro f hf
  obtain ⟨g, rfl⟩ : ∃ g, f = g + 1 := ⟨f - 1, by omega⟩
  simp only [runE]
  rw [show grammarDef .quoted_fragment =
    .act .parseQuotedFragment .quoted from rfl]
  obtain ⟨g1, rfl⟩ : ∃ g1, g = g1 + 1 := ⟨g - 1, by omega⟩
  simp only [runE]
  obtain ⟨g2, rfl⟩ : ∃ g2, g1 = g2 + 1 := ⟨g1 - 1, by omega⟩
  have hq : runE P (g2 + 1) PExpr.quoted true inp = .fail := by
    simp only [runE]
    rw [c4_skip_good inp hg]
    rcases c4_tail_shape inp hg with h | ⟨c, r, h, hw, _⟩
    · rw [h]
    · rw [h]
      split
      · rename_i r' heq
        injection heq with h1 _
        exact absurd (h1 ▸ hw) (by decide)
      · rfl
  rw [hq]

theorem c4_paren_lit_fail (P : PParams) (inp : Str) (hg : GoodStr inp)
    (x : Char) (hx : x ∈ syntacticChars) :
    ∀ f, 2 ≤ f → runE P f (.lit [x]) true inp = .fail := by
  intro f hf
  apply c4_lit_fail
  rw [c4_skip_good inp hg]
  rcases c4_tail_shape inp hg with h | ⟨c, r, h, hw, _⟩
  · rw [h]; rfl
  · rw [h]
    exact c4_prefix_head_false x c [] r (fun he => wordChar_not_syn hw (he ▸ hx))
  · omega

theorem c4_paren_fail (P : PParams) (inp : Str) (hg : GoodStr inp) :
    ∀ f, 8 ≤ f → runE P f (.ref .parenthesized_fragment) true inp = .fail := by
  intro f hf
  obtain ⟨g, rfl⟩ : ∃ g, f = g + 1 := ⟨f - 1, by omega⟩
  simp only [runE]
  rw [show grammarDef .parenthesized_fragment =
    .seq [.suppressE (.lit (cs "(")), .ref .fragment,
      .suppressE (.lit (cs ")"))] from rfl]
  obtain ⟨g1, rfl⟩ : ∃ g1, g = g1 + 1 := ⟨g - 1, by omega⟩
  simp only [runE]
  obtain ⟨g2, rfl⟩ : ∃ g2, g1 = g2 + 1 := ⟨g1 - 1, by omega⟩
  simp only [runSeq]
  obtain ⟨g3, rfl⟩ : ∃ g3, g2 = g3 + 1 := ⟨g2 - 1, by omega⟩
  simp only [runE]
  rw [show (cs "(") = ['('] from rfl]
  rw [c4_paren_lit_fail P inp hg '(' (by decide) g3 (by omega)]

theorem c4_blend_fail (P : PParams) (inp : Str) (hg : GoodStr inp) :
    ∀ f, 10 ≤ f → runE P f (.ref .blend) true inp = .fail := by
  intro f hf
  obtain ⟨g, rfl⟩ : ∃ g, f = g + 1 := ⟨f - 1, by omega⟩
  simp only [runE]
  rw [show grammarDef .blend = .act .makeOperator (.seq
    [.suppressE (.lit (cs "(")),
     .groupE (.seq
       [.groupE (.first [.ref .potential_target_fragment, .ref .quoted_prompt]),
        .zeroOrMore (.seq [.suppressE (.lit (cs ",")),
                           .groupE (.first [.ref .potential_target_fragment,
                                            .ref .quoted_prompt])])]),
     .suppressE (.lit (cs ")")),
     .lit (cs ".blend"),
     .suppressE (.lit (cs "(")),
     .groupE (.ref .options),
     .suppressE (.lit (cs ")"))]) from rfl]
  obtain ⟨g1, rfl⟩ : ∃ g1, g = g1 + 1 := ⟨g - 1, by omega⟩
  simp only [runE]
  obtain ⟨g2, rfl⟩ : ∃ g2, g1 = g2 + 1 := ⟨g1 - 1, by omega⟩
  simp only [runE]
  obtain ⟨g3, rfl⟩ : ∃ g3, g2 = g3 + 1 := ⟨g2 - 1, by omega⟩
  simp only [runSeq]
  obtain ⟨g4, rfl⟩ : ∃ g4, g3 = g4 + 1 := ⟨g3 - 1, by omega⟩
  simp only [runE]
  rw [show (cs "(") = ['('] from rfl]
  rw [c4_paren_lit_fail P inp hg '(' (by decide) g4 (by omega)]

theorem c4_number_fail_empty (P : PParams) :
    ∀ f, 16 ≤ f → runE P f (.ref .number) true [] = .fail := by
  intro f hf
  obtain ⟨g, rfl⟩ : ∃ g, f = g + 1 := ⟨f - 1, by omega⟩
  simp only [runE]
  rw [show grammarDef .number = .first [.realNum,
    .act .tokenFloat (.combine (.seq [.opt (.lit (cs "-")), .word nums]))]
    from rfl]
  obtain ⟨g1, rfl⟩ : ∃ g1, g = g1 + 1 := ⟨g - 1, by omega⟩
  simp only [runE]
  obtain ⟨g2, rfl⟩ : ∃ g2, g1 = g2 + 1 := ⟨g1 - 1, by omega⟩
  simp only [runAlts]
  obtain ⟨g3, rfl⟩ : ∃ g3, g2 = g3 + 1 := ⟨g2 - 1, by omega⟩
  rw [show runE P (g3 + 1) PExpr.realNum true [] = .fail from rfl]
  simp only [runAlts]
  obtain ⟨g4, rfl⟩ : ∃ g4, g3 = g4 + 1 := ⟨g3 - 1, by omega⟩
  simp only [runE]
  obtain ⟨g5, rfl⟩ : ∃ g5, g4 = g5 + 1 := ⟨g4 - 1, by omega⟩
  simp only [runE]
  rw [show skipIf true ([] : Str) = [] from rfl]
  obtain ⟨g6, rfl⟩ : ∃ g6, g5 = g6 + 1 := ⟨g5 - 1, by omega⟩
  simp only [runE]
  obtain ⟨g7, rfl⟩ : ∃ g7, g6 = g7 + 1 := ⟨g6 - 1, by omega⟩
  simp only [runSeq]
  obtain ⟨g8, rfl⟩ : ∃ g8, g7 = g8 + 1 := ⟨g7 - 1, by omega⟩
  simp only [runE]
  obtain ⟨g9, rfl⟩ : ∃ g9, g8 = g9 + 1 := ⟨g8 - 1, by omega⟩
  rw [show runE P (g9 + 1) (.lit (cs "-")) false [] = .fail from rfl]
  simp only [runSeq]
  rw [show runE P (g9 + 1) (.word nums) false [] = .fail from rfl]
  rfl

theorem c4_unrestricted_ok (P : PParams) (u rest : Str) (hu : u ≠ [])
    (huw : ∀ c ∈ u, wordChar c = true) (hnw : NotWordStart rest) :
    ∀ f, 4 ≤ f →
      runE P f (.ref .unrestricted_word) true (u ++ rest) =
        .ok rest [Fragment_mk u 1] := by
  intro f hf
  obtain ⟨g, rfl⟩ : ∃ g, f = g + 1 := ⟨f - 1, by omega⟩
  simp only [runE]
  rw [show grammarDef .unrestricted_word =
    .act .unrestrictedWordFrag (.charsNotIn pyWhitespace) from rfl]
  obtain ⟨g1, rfl⟩ : ∃ g1, g = g1 + 1 := ⟨g - 1, by omega⟩
  simp only [runE]
  obtain ⟨g2, rfl⟩ : ∃ g2, g1 = g2 + 1 := ⟨g1 - 1, by omega⟩
  simp only [runE]
  have htw := takeWhile_append_word (fun x => decide (x ∉ pyWhitespace)) u rest
    (fun c hc => by
      simp
      exact wordChar_not_pyWhitespace (huw c hc))
    (fun c r' hr => by
      rcases hnw with h | h
      · rw [hr] at h; cases h
      · rw [hr] at h
        simp at h
        subst h
        decide)
  rw [htw.1]
  have hne : u.isEmpty = false := by
    cases u
    · exact absurd rfl hu
    · rfl
  rw [hne]
  simp only [Bool.false_eq_true, if_false]
  rw [List.drop_left]
  cases hu' : u with
  | nil => exact absurd hu' hu
  | cons c u'' => rfl

theorem c4_unrestricted_fail (P : PParams) (inp : Str) (hnw : NotWordStart inp) :
    ∀ f, 4 ≤ f → runE P f (.ref .unrestricted_word) true inp = .fail := by
  intro f hf
  obtain ⟨g, rfl⟩ : ∃ g, f = g + 1 := ⟨f - 1, by omega⟩
  simp only [runE]
  rw [show grammarDef .unrestricted_word =
    .act .unrestrictedWordFrag (.charsNotIn pyWhitespace) from rfl]
  obtain ⟨g1, rfl⟩ : ∃ g1, g = g1 + 1 := ⟨g - 1, by omega⟩
  simp only [runE]
  obtain ⟨g2, rfl⟩ : ∃ g2, g1 = g2 + 1 := ⟨g1 - 1, by omega⟩
  simp only [runE]
  rcases hnw with h | h
  · subst h; rfl
  · cases inp with
    | nil => rfl
    | cons c r =>
        simp at h
        subst h
        have hsp : ' ' ∈ pyWhitespace := by decide
        simp [List.takeWhile_cons, hsp]

theorem c4_white_ok (P : PParams) (r : Str) (hg : GoodStr (' ' :: r)) :
    ∀ f, 3 ≤ f →
      runE P f (.suppressE .white) true (' ' :: r) =
        .ok ((' ' :: r).dropWhile (· = ' ')) [] := by
  intro f hf
  obtain ⟨g, rfl⟩ : ∃ g, f = g + 1 := ⟨f - 1, by omega⟩
  simp only [runE]
  obtain ⟨g1, rfl⟩ : ∃ g1, g = g1 + 1 := ⟨g - 1, by omega⟩
  simp only [runE, if_true]
  have hextra : (' ' :: r).dropWhile (· ∈ whiteExtra) = ' ' :: r :=
    dropWhile_head_false r (by decide)
  rw [hextra]
  have hcongr : (' ' :: r).takeWhile (· ∈ whiteMatch) =
      (' ' :: r).takeWhile (· = ' ') := by
    apply takeWhile_congr
    intro c hc
    have hgc := hg c hc
    rcases (by simpa [goodChar] using hgc : c = ' ' ∨ wordChar c = true) with h | h
    · rw [h]; decide
    · have h1 := wordChar_not_whiteMatch h
      have h2 : c ≠ ' ' := fun he => by
        rw [he] at h; exact absurd h (by decide)
      simp [h1, h2]
  rw [hcongr]
  have hne : ((' ' :: r).takeWhile (· = ' ')).isEmpty = false := by
    rw [List.takeWhile_cons]
    simp
  rw [hne]
  simp only [Bool.false_eq_true, if_false]
  rw [drop_takeWhile_length]

/-- The three-way alternative of `potential_target_fragment` (also inlined
in `attention`'s target group). -/
def c4PTF : PExpr :=
  .first [.ref .quoted_fragment, .ref .parenthesized_fragment,
          .ref .restricted_word]

theorem c4_ptf_fail (P : PParams) (inp : Str) (hg : GoodStr inp)
    (ht : inp.dropWhile (· = ' ') = []) :
    ∀ f, 40 ≤ f → runE P f c4PTF true inp = .fail := by
  intro f hf
  obtain ⟨g, rfl⟩ : ∃ g, f = g + 1 := ⟨f - 1, by omega⟩
  simp only [c4PTF, runE]
  obtain ⟨g1, rfl⟩ : ∃ g1, g = g1 + 1 := ⟨g - 1, by omega⟩
  simp only [runAlts]
  rw [c4_quoted_fail P inp hg g1 (by omega)]
  obtain ⟨g2, rfl⟩ : ∃ g2, g1 = g2 + 1 := ⟨g1 - 1, by omega⟩
  simp only [runAlts]
  rw [c4_paren_fail P inp hg g2 (by omega)]
  obtain ⟨g3, rfl⟩ : ∃ g3, g2 = g3 + 1 := ⟨g2 - 1, by omega⟩
  simp only [runAlts]
  have hall : ∀ c ∈ inp, c = ' ' := by
    intro c hc
    have := List.dropWhile_eq_nil_iff.mp ht c hc
    simpa using this
  rw [c4_restricted_word_fail P inp hall g3 (by omega)]
  obtain ⟨g4, rfl⟩ : ∃ g4, g3 = g4 + 1 := ⟨g3 - 1, by omega⟩
  rfl

theorem c4_ptf_ok (P : PParams) (inp : Str) (hg : GoodStr inp)
    (c : Char) (r : Str) (ht : inp.dropWhile (· = ' ') = c :: r)
    (hw : wordChar c = true) :
    ∀ f, 17 * inp.length + 70 ≤ f →
      runE P f c4PTF true inp =
        .ok ((c :: r).dropWhile wordChar)
          [Fragment_mk ((c :: r).takeWhile wordChar) 1] := by
  intro f hf
  obtain ⟨g, rfl⟩ : ∃ g, f = g + 1 := ⟨f - 1, by omega⟩
  simp only [c4PTF, runE]
  obtain ⟨g1, rfl⟩ : ∃ g1, g = g1 + 1 := ⟨g - 1, by omega⟩
  simp only [runAlts]
  rw [c4_quoted_fail P inp hg g1 (by omega)]
  obtain ⟨g2, rfl⟩ : ∃ g2, g1 = g2 + 1 := ⟨g1 - 1, by omega⟩
  simp only [runAlts]
  rw [c4_paren_fail P inp hg g2 (by omega)]
  obtain ⟨g3, rfl⟩ : ∃ g3, g2 = g3 + 1 := ⟨g2 - 1, by omega⟩
  simp only [runAlts]
  have hgt : GoodStr (c :: r) := fun x hx =>
    hg x ((List.dropWhile_sublist _).subset (ht ▸ hx))
  have hu : (c :: r).takeWhile wordChar ≠ [] := by
    rw [List.takeWhile_cons, if_pos hw]
    simp
  have huw : ∀ x ∈ (c :: r).takeWhile wordChar, wordChar x = true :=
    fun x hx => List.mem_takeWhile_imp hx
  have hrest_good : GoodStr ((c :: r).dropWhile wordChar) := fun x hx =>
    hgt x ((List.dropWhile_sublist _).subset hx)
  have hrest_nw : NotWordStart ((c :: r).dropWhile wordChar) := by
    cases hdw : (c :: r).dropWhile wordChar with
    | nil => exact Or.inl rfl
    | cons d r' =>
        right
        have hd := dropWhile_cons_head (c :: r) d r' hdw
        have hgd : goodChar d = true := hrest_good d (by rw [hdw]; exact List.Mem.head _)
        simp
        exact good_space_head hgd hd
  have hsplit : inp = (inp.takeWhile (· = ' ')) ++
      ((c :: r).takeWhile wordChar ++ (c :: r).dropWhile wordChar) := by
    rw [List.takeWhile_append_dropWhile, ← ht, List.takeWhile_append_dropWhile]
  have hsp : ∀ x ∈ inp.takeWhile (· = ' '), x = ' ' := by
    intro x hx
    have := List.mem_takeWhile_imp hx
    simpa using this
  have hrw := c4_restricted_word_ok P (inp.takeWhile (· = ' '))
    ((c :: r).takeWhile wordChar) ((c :: r).dropWhile wordChar)
    hsp hu huw hrest_good hrest_nw g3
    (by
      have hlen : ((c :: r).takeWhile wordChar).length ≤ inp.length := by
        calc ((c :: r).takeWhile wordChar).length ≤ (c :: r).length :=
              (List.takeWhile_sublist _).length_le
          _ = (inp.dropWhile (· = ' ')).length := by rw [ht]
          _ ≤ inp.length := dropWhile_length_le _ _
      omega)
  rw [← hsplit] at hrw
  rw [hrw]

/-- `pp.White()` at a run of spaces: matches the run. -/
theorem c4_white_raw (P : PParams) (r : Str) (hg : GoodStr (' ' :: r)) :
    ∀ f, 1 ≤ f →
      runE P f .white true (' ' :: r) =
        .ok ((' ' :: r).dropWhile (· = ' '))
          [.str ((' ' :: r).takeWhile (· = ' '))] := by
  intro f hf
  obtain ⟨g, rfl⟩ : ∃ g, f = g + 1 := ⟨f - 1, by omega⟩
  simp only [runE, if_true]
  have hextra : (' ' :: r).dropWhile (· ∈ whiteExtra) = ' ' :: r :=
    dropWhile_head_false r (by decide)
  rw [hextra]
  have hcongr : (' ' :: r).takeWhile (· ∈ whiteMatch) =
      (' ' :: r).takeWhile (· = ' ') := by
    apply takeWhile_congr
    intro c hc
    have hgc := hg c hc
    rcases (by simpa [goodChar] using hgc : c = ' ' ∨ wordChar c = true) with h | h
    · rw [h]; decide
    · have h1 := wordChar_not_whiteMatch h
      have h2 : c ≠ ' ' := fun he => by
        rw [he] at h; exact absurd h (by decide)
      simp [h1, h2]
  rw [hcongr]
  have hne : ((' ' :: r).takeWhile (· = ' ')).isEmpty = false := by
    rw [List.takeWhile_cons]
    simp
  rw [hne]
  simp only [Bool.false_eq_true, if_false]
  rw [drop_takeWhile_length]

theorem c4_attention_fail (P : PParams) (inp : Str) (hg : GoodStr inp) :
    ∀ f, 17 * inp.length + 130 ≤ f →
      runE P f (.ref .attention) true inp = .fail := by
  intro f hf
  obtain ⟨g, rfl⟩ : ∃ g, f = g + 1 := ⟨f - 1, by omega⟩
  simp only [runE]
  rw [show grammarDef .attention = .act .makeAttention (.seq
    [.groupE c4PTF, .notAny .white,
     .first [.word (cs "+"), .word (cs "-"), .ref .number]]) from rfl]
  obtain ⟨g1, rfl⟩ : ∃ g1, g = g1 + 1 := ⟨g - 1, by omega⟩
  simp only [runE]
  obtain ⟨g2, rfl⟩ : ∃ g2, g1 = g2 + 1 := ⟨g1 - 1, by omega⟩
  simp only [runE]
  obtain ⟨g3, rfl⟩ : ∃ g3, g2 = g3 + 1 := ⟨g2 - 1, by omega⟩
  simp only [runSeq]
  obtain ⟨g4, rfl⟩ : ∃ g4, g3 = g4 + 1 := ⟨g3 - 1, by omega⟩
  simp only [runE]
  rcases c4_tail_shape inp hg with ht | ⟨c, r, ht, hw, hgt⟩
  · rw [c4_ptf_fail P inp hg ht g4 (by omega)]
  · rw [c4_ptf_ok P inp hg c r ht hw g4 (by omega)]
    simp only [List.cons.injEq]
    have hrest_good : GoodStr ((c :: r).dropWhile wordChar) := fun x hx =>
      hgt x ((List.dropWhile_sublist _).subset hx)
    cases hdw : (c :: r).dropWhile wordChar with
    | cons d r2 =>
        have hd := dropWhile_cons_head (c :: r) d r2 hdw
        have hgd : goodChar d = true :=
          hrest_good d (by rw [hdw]; exact List.Mem.head _)
        have hds : d = ' ' := good_space_head hgd hd
        subst hds
        simp only [runSeq]
        obtain ⟨g5, rfl⟩ : ∃ g5, g4 = g5 + 1 := ⟨g4 - 1, by omega⟩
        simp only [runE]
        rw [c4_white_raw P r2 (hdw ▸ hrest_good) g5 (by omega)]
    | nil =>
        simp only [runSeq]
        obtain ⟨g5, rfl⟩ : ∃ g5, g4 = g5 + 1 := ⟨g4 - 1, by omega⟩
        simp only [runE]
        obtain ⟨g6, rfl⟩ : ∃ g6, g5 = g6 + 1 := ⟨g5 - 1, by omega⟩
        rw [show runE P (g6 + 1) PExpr.white true [] = .fail from rfl]
        simp only [runSeq]
        obtain ⟨g7, rfl⟩ : ∃ g7, g6 = g7 + 1 := ⟨g6 - 1, by omega⟩
        simp only [runE]
        obtain ⟨g8, rfl⟩ : ∃ g8, g7 = g8 + 1 := ⟨g7 - 1, by omega⟩
        simp only [runAlts]
        rw [show runE P (g8 + 1) (.word (cs "+")) true [] = .fail from rfl]
        obtain ⟨g9, rfl⟩ : ∃ g9, g8 = g9 + 1 := ⟨g8 - 1, by omega⟩
        simp only [runAlts]
        rw [show runE P (g9 + 1) (.word (cs "-")) true [] = .fail from rfl]
        obtain ⟨g10, rfl⟩ : ∃ g10, g9 = g10 + 1 := ⟨g9 - 1, by omega⟩
        simp only [runAlts]
        rw [c4_number_fail_empty P (g10 + 1) (by omega)]

theorem c4_cacs_fail (P : PParams) (inp : Str) (hg : GoodStr inp) :
    ∀ f, 17 * inp.length + 130 ≤ f →
      runE P f (.ref .cross_attention_substitute) true inp = .fail := by
  intro f hf
  obtain ⟨g, rfl⟩ : ∃ g, f = g + 1 := ⟨f - 1, by omega⟩
  simp only [runE]
  rw [show grammarDef .cross_attention_substitute = .act .makeOperator (.seq
    [.groupE (.ref .potential_target_fragment),
     .lit (cs ".swap"),
     .suppressE (.lit (cs "(")),
     .groupE (.first [.ref .quoted_fragment, .ref .parenthesized_fragment,
                      .ref .attention, .ref .restricted_fragment, .emptyE]),
     .opt (.seq [.suppressE (.lit (cs ",")), .ref .options]),
     .suppressE (.lit (cs ")"))]) from rfl]
  obtain ⟨g1, rfl⟩ : ∃ g1, g = g1 + 1 := ⟨g - 1, by omega⟩
  simp only [runE]
  obtain ⟨g2, rfl⟩ : ∃ g2, g1 = g2 + 1 := ⟨g1 - 1, by omega⟩
  simp only [runE]
  obtain ⟨g3, rfl⟩ : ∃ g3, g2 = g3 + 1 := ⟨g2 - 1, by omega⟩
  simp only [runSeq]
  obtain ⟨g4, rfl⟩ : ∃ g4, g3 = g4 + 1 := ⟨g3 - 1, by omega⟩
  simp only [runE]
  obtain ⟨g5, rfl⟩ : ∃ g5, g4 = g5 + 1 := ⟨g4 - 1, by omega⟩
  simp only [runE]
  rw [show grammarDef .potential_target_fragment = c4PTF from rfl]
  rcases c4_tail_shape inp hg with ht | ⟨c, r, ht, hw, hgt⟩
  · rw [c4_ptf_fail P inp hg ht g5 (by omega)]
  · rw [c4_ptf_ok P inp hg c r ht hw g5 (by omega)]
    simp only [List.cons.injEq]
    have hrest_good : GoodStr ((c :: r).dropWhile wordChar) := fun x hx =>
      hgt x ((List.dropWhile_sublist _).subset hx)
    simp only [runSeq]
    have hpre : (cs ".swap").isPrefixOf
        (skipIf true ((c :: r).dropWhile wordChar)) = false := by
      rw [c4_skip_good _ hrest_good]
      rcases c4_tail_shape _ hrest_good with h2 | ⟨c2, r2, h2, hw2, _⟩
      · rw [h2]; rfl
      · rw [h2]
        exact c4_prefix_head_false '.' c2 (cs "swap") r2
          (fun he => wordChar_not_syn hw2 (he ▸ by decide))
    rw [c4_lit_fail P (cs ".swap") true ((c :: r).dropWhile wordChar) hpre
      (g5 + 1) (by omega)]

/-- The alternative tried at each step of the `prompt` loop. -/
def c4PromptAlt : PExpr :=
  .first [.ref .cross_attention_substitute, .ref .attention,
          .ref .quoted_fragment, .ref .parenthesized_fragment,
          .ref .unrestricted_word, .suppressE .white]

theorem c4_alt_empty (P : PParams) :
    ∀ f, 160 ≤ f → runE P f c4PromptAlt true [] = .fail := by
  intro f hf
  obtain ⟨g, rfl⟩ : ∃ g, f = g + 1 := ⟨f - 1, by omega⟩
  simp only [c4PromptAlt, runE]
  obtain ⟨g1, rfl⟩ : ∃ g1, g = g1 + 1 := ⟨g - 1, by omega⟩
  simp only [runAlts]
  rw [c4_cacs_fail P [] (by intro c hc; simp at hc) g1 (by simp; omega)]
  obtain ⟨g2, rfl⟩ : ∃ g2, g1 = g2 + 1 := ⟨g1 - 1, by omega⟩
  simp only [runAlts]
  rw [c4_attention_fail P [] (by intro c hc; simp at hc) g2 (by simp; omega)]
  obtain ⟨g3, rfl⟩ : ∃ g3, g2 = g3 + 1 := ⟨g2 - 1, by omega⟩
  simp only [runAlts]
  rw [c4_quoted_fail P [] (by intro c hc; simp at hc) g3 (by omega)]
  obtain ⟨g4, rfl⟩ : ∃ g4, g3 = g4 + 1 := ⟨g3 - 1, by omega⟩
  simp only [runAlts]
  rw [c4_paren_fail P [] (by intro c hc; simp at hc) g4 (by omega)]
  obtain ⟨g5, rfl⟩ : ∃ g5, g4 = g5 + 1 := ⟨g4 - 1, by omega⟩
  simp only [runAlts]
  rw [c4_unrestricted_fail P [] (Or.inl rfl) g5 (by omega)]
  obtain ⟨g6, rfl⟩ : ∃ g6, g5 = g6 + 1 := ⟨g5 - 1, by omega⟩
  simp only [runAlts]
  obtain ⟨g7, rfl⟩ : ∃ g7, g6 = g7 + 1 := ⟨g6 - 1, by omega⟩
  obtain ⟨g8, rfl⟩ : ∃ g8, g7 = g8 + 1 := ⟨g7 - 1, by omega⟩
  rw [show runE P (g8 + 1 + 1) (.suppressE .white) true [] = .fail from rfl]
  obtain ⟨g9, rfl⟩ : ∃ g9, g8 = g9 + 1 := ⟨g8 - 1, by omega⟩
  rfl

theorem c4_alt_space (P : PParams) (r : Str) (hg : GoodStr (' ' :: r)) :
    ∀ f, 17 * (' ' :: r).length + 150 ≤ f →
      runE P f c4PromptAlt true (' ' :: r) =
        .ok ((' ' :: r).dropWhile (· = ' ')) [] := by
  intro f hf
  obtain ⟨g, rfl⟩ : ∃ g, f = g + 1 := ⟨f - 1, by omega⟩
  simp only [c4PromptAlt, runE]
  obtain ⟨g1, rfl⟩ : ∃ g1, g = g1 + 1 := ⟨g - 1, by omega⟩
  simp only [runAlts]
  rw [c4_cacs_fail P (' ' :: r) hg g1 (by omega)]
  obtain ⟨g2, rfl⟩ : ∃ g2, g1 = g2 + 1 := ⟨g1 - 1, by omega⟩
  simp only [runAlts]
  rw [c4_attention_fail P (' ' :: r) hg g2 (by omega)]
  obtain ⟨g3, rfl⟩ : ∃ g3, g2 = g3 + 1 := ⟨g2 - 1, by omega⟩
  simp only [runAlts]
  rw [c4_quoted_fail P (' ' :: r) hg g3 (by omega)]
  obtain ⟨g4, rfl⟩ : ∃ g4, g3 = g4 + 1 := ⟨g3 - 1, by omega⟩
  simp only [runAlts]
  rw [c4_paren_fail P (' ' :: r) hg g4 (by omega)]
  obtain ⟨g5, rfl⟩ : ∃ g5, g4 = g5 + 1 := ⟨g4 - 1, by omega⟩
  simp only [runAlts]
  rw [c4_unrestricted_fail P (' ' :: r) (Or.inr rfl) g5 (by omega)]
  obtain ⟨g6, rfl⟩ : ∃ g6, g5 = g6 + 1 := ⟨g5 - 1, by omega⟩
  simp only [runAlts]
  rw [c4_white_ok P r hg g6 (by omega)]

theorem c4_alt_word (P : PParams) (c : Char) (r : Str)
    (hg : GoodStr (c :: r)) (hw : wordChar c = true) :
    ∀ f, 17 * (c :: r).length + 150 ≤ f →
      runE P f c4PromptAlt true (c :: r) =
        .ok ((c :: r).dropWhile wordChar)
          [Fragment_mk ((c :: r).takeWhile wordChar) 1] := by
  intro f hf
  obtain ⟨g, rfl⟩ : ∃ g, f = g + 1 := ⟨f - 1, by omega⟩
  simp only [c4PromptAlt, runE]
  obtain ⟨g1, rfl⟩ : ∃ g1, g = g1 + 1 := ⟨g - 1, by omega⟩
  simp only [runAlts]
  rw [c4_cacs_fail P (c :: r) hg g1 (by omega)]
  obtain ⟨g2, rfl⟩ : ∃ g2, g1 = g2 + 1 := ⟨g1 - 1, by omega⟩
  simp only [runAlts]
  rw [c4_attention_fail P (c :: r) hg g2 (by omega)]
  obtain ⟨g3, rfl⟩ : ∃ g3, g2 = g3 + 1 := ⟨g2 - 1, by omega⟩
  simp only [runAlts]
  rw [c4_quoted_fail P (c :: r) hg g3 (by omega)]
  obtain ⟨g4, rfl⟩ : ∃ g4, g3 = g4 + 1 := ⟨g3 - 1, by omega⟩
  simp only [runAlts]
  rw [c4_paren_fail P (c :: r) hg g4 (by omega)]
  obtain ⟨g5, rfl⟩ : ∃ g5, g4 = g5 + 1 := ⟨g4 - 1, by omega⟩
  simp only [runAlts]
  have hU : (c :: r).takeWhile wordChar ≠ [] := by
    rw [List.takeWhile_cons, if_pos hw]
    simp
  have hUw : ∀ x ∈ (c :: r).takeWhile wordChar, wordChar x = true :=
    fun x hx => List.mem_takeWhile_imp hx
  have hrest_good : GoodStr ((c :: r).dropWhile wordChar) := fun x hx =>
    hg x ((List.dropWhile_sublist _).subset hx)
  have hrest_nw : NotWordStart ((c :: r).dropWhile wordChar) := by
    cases hdw : (c :: r).dropWhile wordChar with
    | nil => exact Or.inl rfl
    | cons d r2 =>
        right
        have hd := dropWhile_cons_head (c :: r) d r2 hdw
        have hgd : goodChar d = true :=
          hrest_good d (by rw [hdw]; exact List.Mem.head _)
        simp
        exact good_space_head hgd hd
  have hun := c4_unrestricted_ok P ((c :: r).takeWhile wordChar)
    ((c :: r).dropWhile wordChar) hU hUw hrest_nw g5 (by omega)
  rw [List.takeWhile_append_dropWhile] at hun
  rw [hun]

/-- Fragments the `prompt` loop produces: one per whitespace-separated word. -/
def fragsOf (s : Str) : List Node := (wordsOf s).map (fun u => Fragment_mk u 1)

theorem wordsOf_drop_spaces :
    ∀ (s : Str), wordsOf (s.dropWhile (· = ' ')) = wordsOf s := by
  intro s
  induction s with
  | nil => rfl
  | cons c r ih =>
      rw [List.dropWhile_cons]
      by_cases hc : c = ' '
      · rw [if_pos (by simp [hc]), ih,
          show wordsOf (c :: r) = wordsOf r from by
            rw [wordsOf, if_neg (by rw [hc]; decide)]]
      · rw [if_neg (by simp [hc])]

theorem wordsOf_word_led (c : Char) (r : Str) (hw : wordChar c = true) :
    wordsOf (c :: r) = ((c :: r).takeWhile wordChar) ::
      wordsOf ((c :: r).dropWhile wordChar) := by
  rw [wordsOf, if_pos hw, List.takeWhile_cons, if_pos hw,
    List.dropWhile_cons, if_pos hw]

theorem c4_loop (P : PParams) :
    ∀ (n : ℕ) (inp : Str), inp.length ≤ n → GoodStr inp →
      ∀ (acc : List Node) (f : ℕ), 18 * inp.length + 180 ≤ f →
        runLoop P f c4PromptAlt true inp acc = .ok [] (acc ++ fragsOf inp) := by
  intro n
  induction n with
  | zero =>
      intro inp hn hg acc f hf
      have : inp = [] := by
        cases inp
        · rfl
        · simp at hn
      subst this
      obtain ⟨g, rfl⟩ : ∃ g, f = g + 1 := ⟨f - 1, by omega⟩
      simp only [runLoop]
      rw [c4_alt_empty P g (by omega)]
      simp [fragsOf, wordsOf]
  | succ n ih =>
      intro inp hn hg acc f hf
      cases hinp : inp with
      | nil =>
          subst hinp
          obtain ⟨g, rfl⟩ : ∃ g, f = g + 1 := ⟨f - 1, by omega⟩
          simp only [runLoop]
          rw [c4_alt_empty P g (by omega)]
          simp [fragsOf, wordsOf]
      | cons c r =>
          subst hinp
          obtain ⟨g, rfl⟩ : ∃ g, f = g + 1 := ⟨f - 1, by omega⟩
          simp only [runLoop]
          by_cases hw : wordChar c = true
          · rw [c4_alt_word P c r hg hw g (by simp at hf ⊢; omega)]
            simp only [List.cons.injEq]
            rw [ih ((c :: r).dropWhile wordChar)
              (by
                have h1 := dropWhile_length_le wordChar r
                rw [List.dropWhile_cons, if_pos hw]
                simp at hn
                omega)
              (fun x hx => hg x ((List.dropWhile_sublist _).subset hx))
              (acc ++ [Fragment_mk ((c :: r).takeWhile wordChar) 1]) g
              (by
                have h1 := dropWhile_length_le wordChar r
                rw [List.dropWhile_cons, if_pos hw]
                simp at hf ⊢
                omega)]
            simp [fragsOf, wordsOf_word_led c r hw]
          · have hc : c = ' ' :=
              good_space_head (hg c (List.Mem.head _)) (by simpa using hw)
            subst hc
            rw [c4_alt_space P r hg g (by simp at hf ⊢; omega)]
            simp only [List.cons.injEq]
            rw [ih ((' ' :: r).dropWhile (· = ' '))
              (by
                have h1 := dropWhile_length_le (fun x => decide (x = ' ')) r
                rw [List.dropWhile_cons]
                simp at hn ⊢
                omega)
              (fun x hx => hg x ((List.dropWhile_sublist _).subset hx))
              (acc ++ []) g
              (by
                have h1 := dropWhile_length_le (fun x => decide (x = ' ')) r
                rw [List.dropWhile_cons]
                simp at hf ⊢
                omega)]
            rw [show fragsOf ((' ' :: r).dropWhile (· = ' ')) =
              fragsOf (' ' :: r) from by
                rw [fragsOf, fragsOf, wordsOf_drop_spaces]]
            simp

theorem c4_prompt (P : PParams) (inp : Str) (hg : GoodStr inp) :
    ∀ f, 18 * inp.length + 190 ≤ f →
      runE P f (.ref .prompt) true inp = .ok [] (fragsOf inp) := by
  intro f hf
  obtain ⟨g, rfl⟩ : ∃ g, f = g + 1 := ⟨f - 1, by omega⟩
  simp only [runE]
  rw [show grammarDef .prompt = .zeroOrMore c4PromptAlt from rfl]
  obtain ⟨g1, rfl⟩ : ∃ g1, g = g1 + 1 := ⟨g - 1, by omega⟩
  simp only [runE]
  cases hinp : inp with
  | nil =>
      subst hinp
      rw [c4_alt_empty P g1 (by omega)]
      simp [fragsOf, wordsOf]
  | cons c r =>
      subst hinp
      by_cases hw : wordChar c = true
      · rw [c4_alt_word P c r hg hw g1 (by simp at hf ⊢; omega)]
        simp only [List.cons.injEq]
        rw [c4_loop P ((c :: r).dropWhile wordChar).length
          ((c :: r).dropWhile wordChar) le_rfl
          (fun x hx => hg x ((List.dropWhile_sublist _).subset hx))
          [Fragment_mk ((c :: r).takeWhile wordChar) 1] g1
          (by
            have h1 := dropWhile_length_le wordChar r
            rw [List.dropWhile_cons, if_pos hw]
            simp at hf ⊢
            omega)]
        simp [fragsOf, wordsOf_word_led c r hw]
      · have hc : c = ' ' :=
          good_space_head (hg c (List.Mem.head _)) (by simpa using hw)
        subst hc
        rw [c4_alt_space P r hg g1 (by simp at hf ⊢; omega)]
        simp only [List.cons.injEq]
        rw [c4_loop P ((' ' :: r).dropWhile (· = ' ')).length
          ((' ' :: r).dropWhile (· = ' ')) le_rfl
          (fun x hx => hg x ((List.dropWhile_sublist _).subset hx))
          [] g1
          (by
            have h1 := dropWhile_length_le (fun x => decide (x = ' ')) r
            rw [List.dropWhile_cons]
            simp at hf ⊢
            omega)]
        rw [show fragsOf ((' ' :: r).dropWhile (· = ' ')) =
          fragsOf (' ' :: r) from by
            rw [fragsOf, fragsOf, wordsOf_drop_spaces]]
        simp

theorem fragsOf_promptOk (s : Str) :
    ∀ x ∈ fragsOf s, promptChildOk x = true := by
  intro x hx
  rcases List.mem_map.mp hx with ⟨u, _, hu⟩
  rw [← hu]
  rfl

theorem c4_conjunction_mk (frags : List Node)
    (h : ∀ x ∈ frags, promptChildOk x = true) :
    Conjunction_mk [.group frags] none =
      .ok (.conjunction [.prompt frags] [⟨1, 1⟩]) := by
  unfold Conjunction_mk
  have hp : Prompt_mk frags = .ok (.prompt frags) := by
    unfold Prompt_mk
    rw [if_pos (List.all_eq_true.mpr h)]
  simp only [List.mapM_cons, List.mapM_nil, hp, perrBindOk, perrPureOk]
  rfl

theorem c4_conjunction (P : PParams) (inp : Str) (hg : GoodStr inp) :
    ∀ f, 18 * inp.length + 210 ≤ f →
      runE P f (.ref .conjunction) true inp =
        .ok [] [.conjunction [.prompt (fragsOf inp)] [⟨1, 1⟩]] := by
  intro f hf
  obtain ⟨g, rfl⟩ : ∃ g, f = g + 1 := ⟨f - 1, by omega⟩
  simp only [runE]
  rw [show grammarDef .conjunction = .act .makeConjunction (.seq
    [.first [.ref .blend, .groupE (.ref .prompt)], .strEnd]) from rfl]
  obtain ⟨g1, rfl⟩ : ∃ g1, g = g1 + 1 := ⟨g - 1, by omega⟩
  simp only [runE]
  obtain ⟨g2, rfl⟩ : ∃ g2, g1 = g2 + 1 := ⟨g1 - 1, by omega⟩
  simp only [runE]
  obtain ⟨g3, rfl⟩ : ∃ g3, g2 = g3 + 1 := ⟨g2 - 1, by omega⟩
  simp only [runSeq]
  obtain ⟨g4, rfl⟩ : ∃ g4, g3 = g4 + 1 := ⟨g3 - 1, by omega⟩
  simp only [runE]
  obtain ⟨g5, rfl⟩ : ∃ g5, g4 = g5 + 1 := ⟨g4 - 1, by omega⟩
  simp only [runAlts]
  rw [c4_blend_fail P inp hg g5 (by omega)]
  obtain ⟨g6, rfl⟩ : ∃ g6, g5 = g6 + 1 := ⟨g5 - 1, by omega⟩
  simp only [runAlts]
  obtain ⟨g7, rfl⟩ : ∃ g7, g6 = g7 + 1 := ⟨g6 - 1, by omega⟩
  simp only [runE]
  rw [c4_prompt P inp hg g7 (by omega)]
  simp only [List.cons.injEq]
  obtain ⟨g8, rfl⟩ : ∃ g8, g7 = g8 + 1 := ⟨g7 - 1, by omega⟩
  rw [show runSeq P (g8 + 1 + 1 + 1 + 1 + 1) [PExpr.strEnd] true [] =
    .ok [] [] from rfl]
  simp only [List.cons.injEq, List.append_nil]
  simp only [applyAct]
  rw [c4_conjunction_mk (fragsOf inp) (fragsOf_promptOk inp)]

theorem wordsOf_shape :
    ∀ (n : ℕ) (s : Str), s.length ≤ n → GoodStr s →
      ∀ u ∈ wordsOf s, u ≠ [] ∧ ∀ c ∈ u, wordChar c = true := by
  intro n
  induction n with
  | zero =>
      intro s hn _ u hu
      have : s = [] := List.length_eq_zero.mp (Nat.le_zero.mp hn)
      subst this
      simp [wordsOf] at hu
  | succ n ih =>
      intro s hn hg u hu
      cases s with
      | nil => simp [wordsOf] at hu
      | cons c r =>
          by_cases hw : wordChar c = true
          · rw [wordsOf, if_pos hw] at hu
            rcases List.mem_cons.mp hu with h | h
            · subst h
              refine ⟨by simp, ?_⟩
              intro x hx
              rcases List.mem_cons.mp hx with h' | h'
              · rw [h']; exact hw
              · exact List.mem_takeWhile_imp h'
            · exact ih (r.dropWhile wordChar)
                (by
                  have := dropWhile_length_le wordChar r
                  simp at hn
                  omega)
                (fun x hx => hg x (List.Mem.tail _
                  ((List.dropWhile_sublist _).subset hx)))
                u h
          · rw [wordsOf, if_neg hw] at hu
            exact ih r (by simp at hn; omega)
              (fun x hx => hg x (List.Mem.tail _ hx)) u hu

theorem wordsOf_ne_nil :
    ∀ (n : ℕ) (s : Str), s.length ≤ n → GoodStr s →
      (∃ c ∈ s, wordChar c = true) → wordsOf s ≠ [] := by
  intro n
  induction n with
  | zero =>
      intro s hn _ hex
      have : s = [] := List.length_eq_zero.mp (Nat.le_zero.mp hn)
      subst this
      simp at hex
  | succ n ih =>
      intro s hn hg hex
      cases s with
      | nil => simp at hex
      | cons c r =>
          by_cases hw : wordChar c = true
          · rw [wordsOf, if_pos hw]
            simp
          · rw [wordsOf, if_neg hw]
            obtain ⟨c0, hc0, hw0⟩ := hex
            rcases List.mem_cons.mp hc0 with h | h
            · rw [← h] at hw; exact absurd hw0 hw
            · exact ih r (by simp at hn; omega)
                (fun x hx => hg x (List.Mem.tail _ hx)) ⟨c0, h, hw0⟩

theorem fragsOf_eq (s : Str) (hg : GoodStr s) :
    fragsOf s = (wordsOf s).map (fun u => Node.fragment u ⟨1, 1⟩) := by
  unfold fragsOf
  apply List.map_congr_left
  intro u hu
  have hsh := (wordsOf_shape s.length s le_rfl hg u hu).2
  unfold Fragment_mk
  rw [word_fragText_id u hsh]
  rfl

theorem c4_flattenList (cbrt : Q → Q) :
    ∀ (ws : List Str), (∀ u ∈ ws, ∀ c ∈ u, wordChar c = true) →
      flattenList cbrt 1 (ws.map (fun u => Node.fragment u ⟨1, 1⟩)) =
        .ok (ws.map (fun u => Node.fragment u ⟨1, 1⟩)) := by
  intro ws
  induction ws with
  | nil => intro _; simp [flattenList]
  | cons u ws' ih =>
      intro h
      simp only [List.map_cons, flattenList]
      have h1 : flatten_internal cbrt 1 (Node.fragment u ⟨1, 1⟩) =
          .ok [Node.fragment u ⟨1, 1⟩] := by
        simp only [flatten_internal]
        rw [show ((⟨1, 1⟩ : Q) * 1) = (⟨1, 1⟩ : Q) from by decide]
        unfold Fragment_mk
        rw [word_fragText_id u (h u (List.Mem.head _))]
      rw [h1, perrBindOk]
      rw [ih (fun u' h' => h u' (List.Mem.tail _ h'))]
      rw [perrBindOk]
      rfl

theorem joinWords_cons_cons (a u : Str) (ws : List Str) :
    joinWords ((a ++ ' ' :: u) :: ws) = a ++ ' ' :: joinWords (u :: ws) := by
  cases ws with
  | nil => simp [joinWords]
  | cons w ws' => simp [joinWords, List.append_assoc]

theorem c4_fuse_join (cbrt : Q → Q) :
    ∀ (ws : List Str) (acc : Str),
      '(' ∉ acc → ')' ∉ acc → '"' ∉ acc →
      (∀ u ∈ ws, ∀ c ∈ u, wordChar c = true) →
      fuseStep cbrt [.fragment acc ⟨1, 1⟩]
          (ws.map (fun u => Node.fragment u ⟨1, 1⟩)) =
        .ok [.fragment (joinWords (acc :: ws)) ⟨1, 1⟩] := by
  intro ws
  induction ws with
  | nil =>
      intro acc _ _ _ _
      simp [fuseStep, joinWords]
  | cons u ws' ih =>
      intro acc h1 h2 h3 hws
      simp only [List.map_cons, fuseStep]
      rw [show ([Node.fragment acc ⟨1, 1⟩] : List Node).getLast? =
        some (.fragment acc ⟨1, 1⟩) from rfl]
      simp only [List.cons.injEq]
      simp only [if_true]
      have hwu := hws u (List.Mem.head _)
      have hstep : ∀ (x : Char), x ∈ syntacticChars → x ∉ acc →
          x ∉ acc ++ ' ' :: u := by
        intro x hx hxa hmem
        rcases List.mem_append.mp hmem with h | h
        · exact hxa h
        · rcases List.mem_cons.mp h with h' | h'
          · rw [h'] at hx; exact absurd hx (by decide)
          · exact wordChar_not_syn (hwu x h') hx
      rw [show ([Node.fragment acc ⟨1, 1⟩] : List Node).dropLast = [] from rfl]
      rw [show ([] : List Node) ++ [Fragment_mk (acc ++ ' ' :: u) ⟨1, 1⟩] =
        [Fragment_mk (acc ++ ' ' :: u) ⟨1, 1⟩] from rfl]
      unfold Fragment_mk
      rw [fragText_id (acc ++ ' ' :: u)
        (hstep '(' (by decide) h1) (hstep ')' (by decide) h2)
        (hstep '"' (by decide) h3)]
      rw [ih (acc ++ ' ' :: u)
        (hstep '(' (by decide) h1) (hstep ')' (by decide) h2)
        (hstep '"' (by decide) h3)
        (fun u' h' => hws u' (List.Mem.tail _ h'))]
      rw [joinWords_cons_cons]
      rw [show joinWords (acc :: u :: ws') = acc ++ ' ' :: joinWords (u :: ws')
        from rfl]

theorem c4_fuse (cbrt : Q → Q) (u : Str) (ws' : List Str)
    (hws : ∀ w ∈ u :: ws', ∀ c ∈ w, wordChar c = true) :
    fuse_fragments cbrt ((u :: ws').map (fun w => Node.fragment w ⟨1, 1⟩)) =
      .ok [.fragment (joinWords (u :: ws')) ⟨1, 1⟩] := by
  unfold fuse_fragments
  simp only [List.map_cons, fuseStep]
  rw [show (([] : List Node) ++ [Node.fragment u ⟨1, 1⟩]) =
    [Node.fragment u ⟨1, 1⟩] from rfl]
  have hwu := hws u (List.Mem.head _)
  exact c4_fuse_join cbrt ws' u
    (fun hm => wordChar_not_syn (hwu _ hm) (by decide))
    (fun hm => wordChar_not_syn (hwu _ hm) (by decide))
    (fun hm => wordChar_not_syn (hwu _ hm) (by decide))
    (fun w h => hws w (List.Mem.tail _ h))

theorem c4_flatten (cbrt : Q → Q) (ws : List Str) (hne : ws ≠ [])
    (hws : ∀ w ∈ ws, ∀ c ∈ w, wordChar c = true) :
    flatten cbrt
        (.conjunction [.prompt (ws.map (fun u => Node.fragment u ⟨1, 1⟩))]
          [⟨1, 1⟩]) =
      .ok (.conjunction [.flattened [.fragment (joinWords ws) ⟨1, 1⟩]]
        [⟨1, 1⟩]) := by
  cases ws with
  | nil => exact absurd rfl hne
  | cons u ws' =>
      have h1 : flatten_internal cbrt 1
          (.prompt ((u :: ws').map (fun w => Node.fragment w ⟨1, 1⟩))) =
          .ok [.flattened [.fragment (joinWords (u :: ws')) ⟨1, 1⟩]] := by
        simp only [flatten_internal]
        rw [c4_flattenList cbrt (u :: ws') hws, perrBindOk]
        rw [c4_fuse cbrt u ws' hws, perrBindOk]
        rfl
      simp only [flatten, flattenList]
      rw [h1, perrBindOk]
      rfl

theorem dropWhile_keeps {p : Char → Bool} :
    ∀ (l : Str) (c : Char), c ∈ l → p c = false →
      ∃ x ∈ l.dropWhile p, p x = false := by
  intro l
  induction l with
  | nil => intro c hc; simp at hc
  | cons a r ih =>
      intro c hc hp
      by_cases ha : p a = true
      · rw [List.dropWhile_cons_of_pos ha]
        rcases List.mem_cons.mp hc with h | h
        · rw [← h] at ha; rw [ha] at hp; cases hp
        · exact ih c h hp
      · rw [List.dropWhile_cons_of_neg ha]
        exact ⟨a, List.Mem.head _, Bool.eq_false_iff.mpr ha⟩

theorem pyStrip_ne_nil (s : Str) (c : Char) (hc : c ∈ s)
    (hw : pyIsSpace c = false) : ¬ (pyStrip s).length = 0 := by
  obtain ⟨x, hx, hpx⟩ := dropWhile_keeps s c hc hw
  obtain ⟨y, hy, hpy⟩ :=
    dropWhile_keeps (s.dropWhile pyIsSpace).reverse x
      (List.mem_reverse.mpr hx) hpx
  intro h0
  have : pyStrip s = [] := List.length_eq_zero.mp h0
  unfold pyStrip at this
  rw [List.reverse_eq_nil_iff] at this
  rw [this] at hy
  simp at hy

/-- C4: amended. For a string of spaces and word characters (no syntactic
character, no non-space whitespace) containing at least one word
character, `parse_conjunction` returns a `Conjunction` holding exactly one
`FlattenedPrompt` whose sole child is one `Fragment` of weight 1.0 — but
its text is the words of `s` re-joined with single spaces, not `s` itself:
pyparsing consumes inter-token whitespace and `fuse_fragments` re-joins
adjacent fragments with exactly one space, so runs of spaces collapse and
leading/trailing spaces are dropped. -/
theorem c4_fragment_text_amended (P : PParams) (s : Str) (fuel : ℕ)
    (hg : GoodStr s) (hex : ∃ c ∈ s, wordChar c = true)
    (hfuel : 18 * s.length + 210 ≤ fuel) :
    parse_conjunction P fuel s =
      some (.ok (.conjunction
        [.flattened [.fragment (joinWords (wordsOf s)) ⟨1, 1⟩]]
        [⟨1, 1⟩])) := by
  obtain ⟨c0, hc0, hw0⟩ := hex
  have hns : pyIsSpace c0 = false := by
    have h := hw0
    simp [wordChar] at h
    exact h.2.1
  have htab : ∀ c ∈ s, c ≠ '\t' := by
    intro c hc he
    have := hg c hc
    rw [he] at this
    exact absurd this (by decide)
  unfold parse_conjunction
  rw [if_neg (pyStrip_ne_nil s c0 hc0 hns)]
  rw [expandtabs_id s htab]
  rw [c4_conjunction P s hg fuel hfuel]
  show some (flatten P.cbrt
    (Node.conjunction [Node.prompt (fragsOf s)] [⟨1, 1⟩])) = _
  rw [fragsOf_eq s hg]
  rw [c4_flatten P.cbrt (wordsOf s)
    (wordsOf_ne_nil s.length s le_rfl hg ⟨c0, hc0, hw0⟩)
    (fun w hw => (wordsOf_shape s.length s le_rfl hg w hw).2)]

/-- C4: counterexample to the literal claim. The input `"a  b"` (two
spaces) contains no syntactic character, yet the resulting fragment's text
is `"a b"` (one space), not the original string. -/
theorem c4_fragment_text_counterexample :
    parse_conjunction defaultParams 300 (cs "a  b") =
      some (.ok (.conjunction
        [.flattened [.fragment (cs "a b") ⟨1, 1⟩]] [⟨1, 1⟩])) ∧
    cs "a b" ≠ cs "a  b" :=
  ⟨parse_conjunctionF_sound defaultParams 300 200 _ _ rfl, by decide⟩

/-- C4 witness: the amended theorem applied to `"a  b"` with fuel 300. -/
theorem c4_fragment_text_witness :
    parse_conjunction defaultParams 300 (cs "a  b") =
      some (.ok (.conjunction
        [.flattened [.fragment (cs "a b") ⟨1, 1⟩]] [⟨1, 1⟩])) := by
  have hws : wordsOf (cs "a  b") = [cs "a", cs "b"] := by
    rw [show cs "a  b" = 'a' :: cs "  b" from rfl]
    rw [wordsOf, if_pos (show wordChar 'a' = true from by decide)]
    rw [show (cs "  b").takeWhile wordChar = [] from rfl]
    rw [show (cs "  b").dropWhile wordChar = ' ' :: ' ' :: cs "b" from rfl]
    rw [wordsOf, if_neg (show ¬ wordChar ' ' = true from by decide)]
    rw [wordsOf, if_neg (show ¬ wordChar ' ' = true from by decide)]
    rw [show cs "b" = 'b' :: ([] : Str) from rfl]
    rw [wordsOf, if_pos (show wordChar 'b' = true from by decide)]
    rw [show (([] : Str)).takeWhile wordChar = [] from rfl]
    rw [show (([] : Str)).dropWhile wordChar = [] from rfl]
    simp [wordsOf]
    rfl
  have h := c4_fragment_text_amended defaultParams (cs "a  b") 300
    (by decide : ∀ c ∈ cs "a  b", goodChar c = true)
    (by decide) (by decide)
  rw [h, hws]
  rfl
